import Mathlib

/-!
Shallow embedding of the quantity formatting/parsing core of the
`humanfriendly` Python library (version 1.32): the tokenizer from
`humanfriendly/text.py`, the unit tables and the `format_size`,
`parse_size`, `parse_length`, `format_timespan` and `parse_timespan`
functions from `humanfriendly/__init__.py`, together with `pluralize`,
`concatenate` and `round_number`.

Modelling conventions:
* Python numbers (ints and floats) are modelled as `ℤ` and `ℚ`; float
  arithmetic is exact rational arithmetic.
* `int(x)` on a float is truncation toward zero (`intTrunc`).
* `'%.2f' % x` is round-half-even to two decimals followed by fixed-width
  decimal rendering (`roundHalfEven`, `round_number`).
* Strings are processed as `List Char`; the regular expression
  `re.split(r'(\d+(?:\.\d+)?)', text)` used by `tokenize` is modelled by a
  one-pass state machine (`splitGo`) producing the same fragment list;
  digits are the ASCII digits and whitespace is Python's default
  `str.strip` whitespace set.
* A `raise` is modelled with `Except`; the `InvalidSize` / `InvalidLength`
  / `InvalidTimespan` exceptions carry the original input together with
  its token list, which is the diagnostic payload interpolated by the
  source into the exception message.
-/

/-! ## Characters and digit strings -/

/-- ASCII decimal digit test (the `\d` / `str.isdigit` class used by
`tokenize`, restricted to ASCII). -/
def isDig (c : Char) : Bool :=
  c == '0' || c == '1' || c == '2' || c == '3' || c == '4' ||
  c == '5' || c == '6' || c == '7' || c == '8' || c == '9'

/-- Python's default `str.strip` whitespace characters. -/
def isWs (c : Char) : Bool :=
  c == ' ' || c == '\t' || c == '\n' || c == '\r' || c == '\x0b' || c == '\x0c'

/-- Numeric value of a decimal digit character. -/
def digitVal (c : Char) : ℕ := c.toNat - 48

/-- The decimal digit character for `n < 10` (clamped at `'9'`). -/
def digitChar (n : ℕ) : Char :=
  match n with
  | 0 => '0' | 1 => '1' | 2 => '2' | 3 => '3' | 4 => '4'
  | 5 => '5' | 6 => '6' | 7 => '7' | 8 => '8' | _ => '9'

/-- Value of a decimal digit string, most significant digit first. -/
def digitsToNat (l : List Char) : ℕ := l.foldl (fun a c => 10 * a + digitVal c) 0

/-- Fuelled decimal rendering of a natural number (most significant digit
first); the fuel only bounds the recursion depth. -/
def natDigitsAux : ℕ → ℕ → List Char
  | 0, _ => []
  | fuel + 1, n =>
    if n < 10 then [digitChar n] else natDigitsAux fuel (n / 10) ++ [digitChar (n % 10)]

/-- Decimal digit string of a natural number, as produced by Python's
`str` on a nonnegative `int`. -/
def natDigits (n : ℕ) : List Char := natDigitsAux (n + 1) n

theorem isDig_digitChar (n : ℕ) : isDig (digitChar n) = true := by
  rcases n with _ | _ | _ | _ | _ | _ | _ | _ | _ | m <;> rfl

theorem digitVal_digitChar {n : ℕ} (h : n < 10) : digitVal (digitChar n) = n := by
  interval_cases n <;> rfl

theorem isWs_of_isDig {c : Char} (h : isDig c = true) : isWs c = false := by
  simp only [isDig, Bool.or_eq_true, beq_iff_eq] at h
  rcases h with ((((((((h | h) | h) | h) | h) | h) | h) | h) | h) | h <;> subst h <;> rfl

theorem digitChar_ne_dot (n : ℕ) : (digitChar n == '.') = false := by
  rcases n with _ | _ | _ | _ | _ | _ | _ | _ | _ | m <;> rfl

theorem digitChar_eq_zero_iff {n : ℕ} (h : n < 10) :
    (digitChar n == '0') = decide (n = 0) := by
  interval_cases n <;> rfl

theorem digitsToNat_append_singleton (l : List Char) (c : Char) :
    digitsToNat (l ++ [c]) = 10 * digitsToNat l + digitVal c := by
  simp [digitsToNat, List.foldl_append]

theorem natDigitsAux_spec :
    ∀ fuel n, n < fuel →
      digitsToNat (natDigitsAux fuel n) = n ∧ natDigitsAux fuel n ≠ [] ∧
        ∀ c ∈ natDigitsAux fuel n, isDig c = true := by
  intro fuel
  induction fuel with
  | zero => intro n h; omega
  | succ fuel ih =>
    intro n h
    by_cases h10 : n < 10
    · refine ⟨?_, ?_, ?_⟩
      · simp [natDigitsAux, h10, digitsToNat, digitVal_digitChar h10]
      · simp [natDigitsAux, h10]
      · intro c hc
        simp [natDigitsAux, h10] at hc
        subst hc
        exact isDig_digitChar n
    · have hlt : n / 10 < fuel := by omega
      obtain ⟨h1, h2, h3⟩ := ih (n / 10) hlt
      refine ⟨?_, ?_, ?_⟩
      · simp only [natDigitsAux, if_neg h10]
        rw [digitsToNat_append_singleton, h1, digitVal_digitChar (by omega)]
        omega
      · simp [natDigitsAux, h10]
      · intro c hc
        simp only [natDigitsAux, if_neg h10, List.mem_append, List.mem_singleton] at hc
        rcases hc with hc | hc
        · exact h3 c hc
        · subst hc; exact isDig_digitChar _

theorem digitsToNat_natDigits (n : ℕ) : digitsToNat (natDigits n) = n :=
  (natDigitsAux_spec (n + 1) n (by omega)).1

theorem natDigits_ne_nil (n : ℕ) : natDigits n ≠ [] :=
  (natDigitsAux_spec (n + 1) n (by omega)).2.1

theorem natDigits_all_digit (n : ℕ) : ∀ c ∈ natDigits n, isDig c = true :=
  (natDigitsAux_spec (n + 1) n (by omega)).2.2

/-! ## Python `str.strip` -/

/-- Python `str.strip()` with no argument: remove leading and trailing
whitespace. -/
def pyStrip (l : List Char) : List Char :=
  (((l.dropWhile isWs).reverse).dropWhile isWs).reverse

theorem dropWhile_head_false {p : Char → Bool} :
    ∀ {l : List Char} {c : Char} {t : List Char}, l.dropWhile p = c :: t → p c = false := by
  intro l
  induction l with
  | nil => intro c t h; simp [List.dropWhile] at h
  | cons a l ih =>
    intro c t h
    by_cases hp : p a
    · rw [List.dropWhile_cons_of_pos hp] at h
      exact ih h
    · rw [List.dropWhile_cons_of_neg hp] at h
      cases h
      exact Bool.of_not_eq_true hp

theorem dropWhile_eq_self_of_head {p : Char → Bool} {l : List Char}
    (h : ∀ c, l.head? = some c → p c = false) : l.dropWhile p = l := by
  cases l with
  | nil => rfl
  | cons a l =>
    have := h a rfl
    simp [List.dropWhile, this]

theorem dropWhile_eq_self_of_all {p : Char → Bool} {l : List Char}
    (h : ∀ c ∈ l, p c = false) : l.dropWhile p = l := by
  apply dropWhile_eq_self_of_head
  intro c hc
  cases l with
  | nil => simp at hc
  | cons a l => cases hc; exact h _ (List.mem_cons_self _ _)

theorem pyStrip_eq_self_of_all {l : List Char} (h : ∀ c ∈ l, isWs c = false) :
    pyStrip l = l := by
  unfold pyStrip
  rw [dropWhile_eq_self_of_all h, dropWhile_eq_self_of_all (by
    intro c hc
    exact h c (List.mem_reverse.mp hc)), List.reverse_reverse]

theorem pyStrip_cons_ws {c : Char} {l : List Char} (h : isWs c = true) :
    pyStrip (c :: l) = pyStrip l := by
  unfold pyStrip
  rw [List.dropWhile_cons_of_pos h]

/-! ## The tokenizer (`humanfriendly.text.tokenize`) -/

/-- One fragment of `re.split(r'(\d+(?:\.\d+)?)', text)`: either a stretch
of non-number text or a matched number literal. -/
inductive Frag
  | text (s : List Char)
  | number (s : List Char)
deriving DecidableEq

/-- State of the fragment scanner: accumulating plain text, the digits of
an integer part, or the digits of a fractional part (all in reverse). -/
inductive SMode
  | txt (acc : List Char)
  | intp (ds : List Char)
  | frac (ds fs : List Char)

/-- Emit the pending fragment(s) at the end of the input.  `re.split`
always produces a (possibly empty) text fragment after the last match. -/
def flushMode : SMode → List Frag
  | .txt acc => [.text acc.reverse]
  | .intp ds => [.number ds.reverse, .text []]
  | .frac ds fs => [.number (ds.reverse ++ '.' :: fs.reverse), .text []]

/-- One-pass scanner equivalent to `re.split(r'(\d+(?:\.\d+)?)', text)`:
maximal digit runs form number fragments, a dot is absorbed into a number
exactly when it is directly followed by a digit. -/
def splitGo : List Char → SMode → List Frag
  | [], m => flushMode m
  | c :: rest, .txt acc =>
    if isDig c then .text acc.reverse :: splitGo rest (.intp [c])
    else splitGo rest (.txt (c :: acc))
  | c :: rest, .intp ds =>
    if isDig c then splitGo rest (.intp (c :: ds))
    else if c == '.' then
      match rest with
      | d :: _ =>
        if isDig d then splitGo rest (.frac ds [])
        else .number ds.reverse :: splitGo rest (.txt [c])
      | [] => .number ds.reverse :: splitGo rest (.txt [c])
    else .number ds.reverse :: splitGo rest (.txt [c])
  | c :: rest, .frac ds fs =>
    if isDig c then splitGo rest (.frac ds (c :: fs))
    else .number (ds.reverse ++ '.' :: fs.reverse) :: splitGo rest (.txt [c])

/-- A token produced by `tokenize`: a Python `int`, `float` or `str`. -/
inductive Token
  | int (n : ℤ)
  | float (q : ℚ)
  | str (s : String)
deriving DecidableEq

/-- `re.match(r'\d+\.\d+', token)`: does the token start with digits, a
dot, and at least one more digit? -/
def matchFloat (l : List Char) : Bool :=
  (!(l.takeWhile isDig).isEmpty) &&
    (match l.dropWhile isDig with
     | '.' :: r2 => match r2 with | d :: _ => isDig d | [] => false
     | _ => false)

/-- Value of a decimal literal of the shape `\d+(\.\d+)?` (Python `float`
of the literal, modelled exactly in `ℚ`). -/
def decToRat (l : List Char) : ℚ :=
  let ds := l.takeWhile isDig
  match l.dropWhile isDig with
  | '.' :: r2 =>
    let fs := r2.takeWhile isDig
    (digitsToNat ds : ℚ) + (digitsToNat fs : ℚ) / 10 ^ fs.length
  | _ => (digitsToNat ds : ℚ)

/-- Classify one stripped fragment the way the loop body of `tokenize`
does: float literal, digit run, non-empty string, or discarded. -/
def classify (f : Frag) : Option Token :=
  let token := pyStrip (match f with | .text s => s | .number s => s)
  if matchFloat token then some (.float (decToRat token))
  else if !token.isEmpty && token.all isDig then some (.int (digitsToNat token))
  else if !token.isEmpty then some (.str token.asString)
  else none

/-- `humanfriendly.text.tokenize`: split the text around number literals,
strip every fragment, and coerce number fragments to `int` / `float`. -/
def tokenize (text : String) : List Token :=
  (splitGo text.toList (.txt [])).filterMap classify

/-! ## Numeric helpers (`int()`, `%.2f`, `float()`) -/

/-- Python `int()` on a float: truncation toward zero. -/
def intTrunc (q : ℚ) : ℤ := if 0 ≤ q then ⌊q⌋ else -⌊-q⌋

/-- Round a rational to the nearest integer, ties to even: the rounding
performed by `'%.2f'` (after scaling by 100). -/
def roundHalfEven (x : ℚ) : ℤ :=
  if x - ⌊x⌋ < 1 / 2 then ⌊x⌋
  else if 1 / 2 < x - ⌊x⌋ then ⌊x⌋ + 1
  else if ⌊x⌋ % 2 = 0 then ⌊x⌋ else ⌊x⌋ + 1

/-- Two-digit zero-padded rendering of `r < 100` (the fractional part of
`'%.2f'`). -/
def pad2 (r : ℕ) : List Char := [digitChar (r / 10), digitChar (r % 10)]

/-- `re.sub('0+$', '', text)` followed by `re.sub('\.$', '', text)` as in
`round_number`. -/
def stripTrailingZeros (l : List Char) : List Char :=
  let r := l.reverse.dropWhile (fun c => c == '0')
  (match r with | '.' :: t => t | _ => r).reverse

/-- The text `'%.2f' % float(count)`: optional sign, the integer digits,
a dot and two fractional digits, after round-half-even at two decimals. -/
def fmtTwoDecimals (count : ℚ) : List Char :=
  (if roundHalfEven (100 * count) < 0 ∨ (roundHalfEven (100 * count) = 0 ∧ count < 0)
    then ['-'] else []) ++
  natDigits ((roundHalfEven (100 * count)).natAbs / 100) ++
  '.' :: pad2 ((roundHalfEven (100 * count)).natAbs % 100)

/-- `humanfriendly.round_number`: format to two decimals (`'%.2f'`), then
strip trailing zeros and a bare trailing dot unless `keep_width`. -/
def round_number (count : ℚ) (keep_width : Bool) : String :=
  (if keep_width then fmtTwoDecimals count else stripTrailingZeros (fmtTwoDecimals count)).asString

/-- Python `float()` restricted to the signed decimal literals that occur
as `pluralize` counts in this library (outputs of `round_number` and
`str` on ints). -/
def pyFloatOfString (l : List Char) : ℚ :=
  match l with
  | '-' :: r => -(decToRat r)
  | _ => decToRat l

/-- Python `str` on an `int`. -/
def intRender (n : ℤ) : String :=
  (if n < 0 then '-' :: natDigits n.natAbs else natDigits n.natAbs).asString

/-! ## `pluralize` and `concatenate` (`humanfriendly.text`) -/

/-- A count as passed to `pluralize` in this library: a Python `int` or a
numeric string (`round_number` output). -/
inductive Count
  | int (n : ℤ)
  | str (s : String)

/-- How `'%s %s'` renders the count. -/
def Count.render : Count → String
  | .int n => intRender n
  | .str s => s

/-- The numeric value `float(count)` of the count. -/
def Count.value : Count → ℚ
  | .int n => (n : ℚ)
  | .str s => pyFloatOfString s.toList

/-- `humanfriendly.text.pluralize`.  The default `plural=None` is modelled
as `""` (both are falsy, triggering the `singular + "s"` derivation); the
singular is chosen exactly when `math.floor(float(count)) == 1`. -/
def pluralize (count : Count) (singular : String) (plural : String) : String :=
  let p := if plural = "" then singular ++ "s" else plural
  count.render ++ " " ++ (if ⌊count.value⌋ = 1 then singular else p)

/-- `humanfriendly.text.concatenate`: comma-separate all but the last
item, with `" and "` before the final one; a single item is returned
bare and an empty list gives `""`. -/
def concatenate (items : List String) : String :=
  if 1 < items.length then
    String.intercalate ", " items.dropLast ++ " and " ++ items.getLastD ""
  else match items with
    | [x] => x
    | _ => ""

/-! ## Unit tables -/

/-- One entry of `disk_size_units` / `length_size_units`. -/
structure UnitInfo where
  pfx : String
  divider : ℚ
  singular : String
  plural : String
deriving DecidableEq

/-- One entry of `time_units` (no prefix key in the source). -/
structure TimeUnitInfo where
  divider : ℚ
  singular : String
  plural : String
deriving DecidableEq

/-- `humanfriendly.disk_size_units`. -/
def disk_size_units : List UnitInfo :=
  [⟨"b", 1, "byte", "bytes"⟩,
   ⟨"k", 1024, "KB", "KB"⟩,
   ⟨"m", 1024 ^ 2, "MB", "MB"⟩,
   ⟨"g", 1024 ^ 3, "GB", "GB"⟩,
   ⟨"t", 1024 ^ 4, "TB", "TB"⟩,
   ⟨"p", 1024 ^ 5, "PB", "PB"⟩]

/-- `humanfriendly.length_size_units` (the float dividers `1e-09` etc. are
modelled as exact rationals). -/
def length_size_units : List UnitInfo :=
  [⟨"nm", 1 / 1000000000, "nm", "nm"⟩,
   ⟨"mm", 1 / 1000, "mm", "mm"⟩,
   ⟨"cm", 1 / 100, "cm", "cm"⟩,
   ⟨"m", 1, "metre", "metres"⟩,
   ⟨"km", 1000, "km", "km"⟩]

/-- `humanfriendly.time_units`. -/
def time_units : List TimeUnitInfo :=
  [⟨1, "second", "seconds"⟩,
   ⟨60, "minute", "minutes"⟩,
   ⟨60 * 60, "hour", "hours"⟩,
   ⟨60 * 60 * 24, "day", "days"⟩,
   ⟨60 * 60 * 24 * 7, "week", "weeks"⟩,
   ⟨60 * 60 * 24 * 7 * 52, "year", "years"⟩]

/-! ## Formatting and parsing sizes -/

/-- Lower-case a character list (Python `str.lower` on the ASCII unit
tokens involved). -/
def lowerList (l : List Char) : List Char := l.map Char.toLower

/-- Does the first list start with the second (Python `str.startswith`)? -/
def lcStartsWith : List Char → List Char → Bool
  | _, [] => true
  | [], _ :: _ => false
  | c :: cs, p :: ps => c == p && lcStartsWith cs ps

/-- The numeric value of a token, when it is a number
(`isinstance(token, numbers.Number)`). -/
def tokenNum : Token → Option ℚ
  | .int n => some (n : ℚ)
  | .float q => some q
  | .str _ => none

/-- The loop of `parse_size`: first entry of `disk_size_units` whose
prefix the lower-cased unit token starts with. -/
def sizeUnitMatch (u : String) : Option UnitInfo :=
  disk_size_units.find? fun e => lcStartsWith (lowerList u.toList) e.pfx.toList

/-- The loop of `parse_length` over `length_size_units`. -/
def lengthUnitMatch (u : String) : Option UnitInfo :=
  length_size_units.find? fun e => lcStartsWith (lowerList u.toList) e.pfx.toList

/-- The loop of `parse_timespan`: first entry of `time_units` whose
singular name's first letter the lower-cased unit token starts with. -/
def timespanMatch (u : String) : Option TimeUnitInfo :=
  time_units.find? fun e => lcStartsWith (lowerList u.toList) (e.singular.toList.take 1)

/-- The scan of `format_size` over `reversed(disk_size_units)`: the first
unit (largest divider first) whose divider is at most `num_bytes`. -/
def sizeScan : List UnitInfo → ℤ → Bool → Option String
  | [], _, _ => none
  | u :: rest, n, kw =>
    if u.divider ≤ (n : ℚ) then
      some (pluralize (.str (round_number ((n : ℚ) / u.divider) kw)) u.singular u.plural)
    else sizeScan rest n kw

/-- `humanfriendly.format_size` (default `keep_width=False` passed
explicitly). -/
def format_size (num_bytes : ℤ) (keep_width : Bool) : String :=
  (sizeScan disk_size_units.reverse num_bytes keep_width).getD
    (pluralize (.int num_bytes) "byte" "")

/-- `humanfriendly.parse_size`: returns the byte count, or the
`InvalidSize` payload (original input and token list). -/
def parse_size (size : String) : Except (String × List Token) ℤ :=
  match tokenize size with
  | [t] =>
    match tokenNum t with
    | some q => .ok (intTrunc q)
    | none => .error (size, tokenize size)
  | [t, Token.str u] =>
    match tokenNum t with
    | some q =>
      match sizeUnitMatch u with
      | some e => .ok (intTrunc (q * e.divider))
      | none => .error (size, tokenize size)
    | none => .error (size, tokenize size)
  | _ => .error (size, tokenize size)

/-- `humanfriendly.parse_length`: returns the number of metres, or the
`InvalidLength` payload. -/
def parse_length (length : String) : Except (String × List Token) ℚ :=
  match tokenize length with
  | [t] =>
    match tokenNum t with
    | some q => .ok ((intTrunc q : ℤ) : ℚ)
    | none => .error (length, tokenize length)
  | [t, Token.str u] =>
    match tokenNum t with
    | some q =>
      match lengthUnitMatch u with
      | some e => .ok (q * e.divider)
      | none => .error (length, tokenize length)
    | none => .error (length, tokenize length)
  | _ => .error (length, tokenize length)

/-- `humanfriendly.parse_timespan`: returns the number of seconds as a
float, or the `InvalidTimespan` payload. -/
def parse_timespan (timespan : String) : Except (String × List Token) ℚ :=
  match tokenize timespan with
  | [t] =>
    match tokenNum t with
    | some q => .ok q
    | none => .error (timespan, tokenize timespan)
  | [t, Token.str u] =>
    match tokenNum t with
    | some q =>
      match timespanMatch u with
      | some e => .ok (q * e.divider)
      | none => .error (timespan, tokenize timespan)
    | none => .error (timespan, tokenize timespan)
  | _ => .error (timespan, tokenize timespan)

/-! ## Formatting timespans -/

/-- The loop of `format_timespan` over `reversed(time_units)`: when the
remaining seconds reach a divider, take `int(num_seconds / divider)` of
that unit and continue with `num_seconds % divider`. -/
def timespanLoop : List TimeUnitInfo → ℚ → List String
  | [], _ => []
  | u :: rest, ns =>
    if u.divider ≤ ns then
      pluralize (.int (intTrunc (ns / u.divider))) u.singular u.plural ::
        timespanLoop rest (ns - ⌊ns / u.divider⌋ * u.divider)
    else timespanLoop rest ns

/-- `humanfriendly.format_timespan`. -/
def format_timespan (num_seconds : ℚ) : String :=
  if num_seconds < 60 then
    pluralize (.str (round_number num_seconds false)) "second" ""
  else
    let result := timespanLoop time_units.reverse num_seconds
    if result.length = 1 then result.headD "" else concatenate (result.take 3)

/-! ## Scanner lemmas -/

theorem splitGo_nil (m : SMode) : splitGo [] m = flushMode m := rfl

theorem splitGo_cons_txt (c : Char) (rest acc : List Char) :
    splitGo (c :: rest) (.txt acc) =
      if isDig c then .text acc.reverse :: splitGo rest (.intp [c])
      else splitGo rest (.txt (c :: acc)) := rfl

theorem splitGo_cons_intp (c : Char) (rest ds : List Char) :
    splitGo (c :: rest) (.intp ds) =
      if isDig c then splitGo rest (.intp (c :: ds))
      else if c == '.' then
        (match rest with
         | d :: _ =>
           if isDig d then splitGo rest (.frac ds [])
           else .number ds.reverse :: splitGo rest (.txt [c])
         | [] => .number ds.reverse :: splitGo rest (.txt [c]))
      else .number ds.reverse :: splitGo rest (.txt [c]) := rfl

theorem splitGo_cons_frac (c : Char) (rest ds fs : List Char) :
    splitGo (c :: rest) (.frac ds fs) =
      if isDig c then splitGo rest (.frac ds (c :: fs))
      else .number (ds.reverse ++ '.' :: fs.reverse) :: splitGo rest (.txt [c]) := rfl

theorem splitGo_txt_of_no_digit :
    ∀ {l : List Char} (acc : List Char), (∀ c ∈ l, isDig c = false) →
      splitGo l (.txt acc) = [.text (acc.reverse ++ l)] := by
  intro l
  induction l with
  | nil => intro acc _; simp [splitGo_nil, flushMode]
  | cons c rest ih =>
    intro acc h
    have hc : isDig c = false := h c (List.mem_cons_self _ _)
    rw [splitGo_cons_txt, if_neg (by simp [hc]),
      ih (c :: acc) (fun d hd => h d (List.mem_cons_of_mem _ hd))]
    simp

theorem splitGo_intp_digits :
    ∀ {ds : List Char} {l : List Char} (acc : List Char), (∀ c ∈ ds, isDig c = true) →
      splitGo (ds ++ l) (.intp acc) = splitGo l (.intp (ds.reverse ++ acc)) := by
  intro ds
  induction ds with
  | nil => intro l acc _; simp
  | cons c ds ih =>
    intro l acc h
    have hc : isDig c = true := h c (List.mem_cons_self _ _)
    rw [List.cons_append, splitGo_cons_intp, if_pos hc,
      ih (c :: acc) (fun d hd => h d (List.mem_cons_of_mem _ hd))]
    simp

theorem splitGo_frac_digits :
    ∀ {fs : List Char} {l : List Char} (ds acc : List Char), (∀ c ∈ fs, isDig c = true) →
      splitGo (fs ++ l) (.frac ds acc) = splitGo l (.frac ds (fs.reverse ++ acc)) := by
  intro fs
  induction fs with
  | nil => intro l ds acc _; simp
  | cons c fs ih =>
    intro l ds acc h
    have hc : isDig c = true := h c (List.mem_cons_self _ _)
    rw [List.cons_append, splitGo_cons_frac, if_pos hc,
      ih ds (c :: acc) (fun d hd => h d (List.mem_cons_of_mem _ hd))]
    simp

theorem splitGo_number_then_space (D : List Char) (u : List Char) (hD : D ≠ [])
    (hDd : ∀ c ∈ D, isDig c = true) (hu : ∀ c ∈ u, isDig c = false) :
    splitGo (D ++ ' ' :: u) (.txt []) = [.text [], .number D, .text (' ' :: u)] := by
  cases D with
  | nil => exact absurd rfl hD
  | cons d D' =>
    have hd : isDig d = true := hDd d (List.mem_cons_self _ _)
    rw [List.cons_append, splitGo_cons_txt, if_pos hd,
      splitGo_intp_digits [d] (fun c hc => hDd c (List.mem_cons_of_mem _ hc))]
    rw [splitGo_cons_intp, if_neg (by decide), if_neg (by decide)]
    rw [splitGo_txt_of_no_digit [' '] hu]
    simp

theorem splitGo_number_dot_then_space (D F : List Char) (u : List Char)
    (hD : D ≠ []) (hF : F ≠ [])
    (hDd : ∀ c ∈ D, isDig c = true) (hFd : ∀ c ∈ F, isDig c = true)
    (hu : ∀ c ∈ u, isDig c = false) :
    splitGo ((D ++ '.' :: F) ++ ' ' :: u) (.txt []) =
      [.text [], .number (D ++ '.' :: F), .text (' ' :: u)] := by
  rw [List.append_assoc, List.cons_append]
  cases D with
  | nil => exact absurd rfl hD
  | cons d D' =>
    have hd : isDig d = true := hDd d (List.mem_cons_self _ _)
    rw [List.cons_append, splitGo_cons_txt, if_pos hd,
      splitGo_intp_digits [d] (fun c hc => hDd c (List.mem_cons_of_mem _ hc))]
    cases F with
    | nil => exact absurd rfl hF
    | cons f F' =>
      have hf : isDig f = true := hFd f (List.mem_cons_self _ _)
      rw [splitGo_cons_intp, if_neg (by decide), if_pos (by decide), List.cons_append]
      simp only [hf, if_true, if_pos]
      rw [show (f :: (F' ++ ' ' :: u)) = (f :: F') ++ ' ' :: u from rfl,
        splitGo_frac_digits (D'.reverse ++ [d]) [] hFd]
      rw [splitGo_cons_frac, if_neg (by decide)]
      rw [splitGo_txt_of_no_digit [' '] hu]
      simp

theorem splitGo_number_only (D : List Char) (hD : D ≠ [])
    (hDd : ∀ c ∈ D, isDig c = true) :
    splitGo D (.txt []) = [.text [], .number D, .text []] := by
  cases D with
  | nil => exact absurd rfl hD
  | cons d D' =>
    have hd : isDig d = true := hDd d (List.mem_cons_self _ _)
    rw [show (d :: D') = (d :: D') ++ ([] : List Char) from by simp, List.cons_append,
      splitGo_cons_txt, if_pos hd,
      splitGo_intp_digits [d] (fun c hc => hDd c (List.mem_cons_of_mem _ hc))]
    simp [splitGo_nil, flushMode]

/-! ## Classification lemmas -/

theorem takeWhile_eq_self_of_all {p : Char → Bool} {l : List Char}
    (h : ∀ c ∈ l, p c = true) : l.takeWhile p = l := by
  induction l with
  | nil => rfl
  | cons a l ih =>
    rw [List.takeWhile_cons_of_pos (h a (List.mem_cons_self _ _)),
      ih (fun c hc => h c (List.mem_cons_of_mem _ hc))]

theorem dropWhile_eq_nil_of_all {p : Char → Bool} {l : List Char}
    (h : ∀ c ∈ l, p c = true) : l.dropWhile p = [] := by
  induction l with
  | nil => rfl
  | cons a l ih =>
    rw [List.dropWhile_cons_of_pos (h a (List.mem_cons_self _ _)),
      ih (fun c hc => h c (List.mem_cons_of_mem _ hc))]

theorem takeWhile_append_not {p : Char → Bool} {l : List Char} {c : Char} (r : List Char)
    (hl : ∀ a ∈ l, p a = true) (hc : p c = false) :
    (l ++ c :: r).takeWhile p = l ∧ (l ++ c :: r).dropWhile p = c :: r := by
  induction l with
  | nil => constructor <;> simp [List.takeWhile, List.dropWhile, hc]
  | cons a l ih =>
    obtain ⟨ih1, ih2⟩ := ih (fun b hb => hl b (List.mem_cons_of_mem _ hb))
    have ha : p a = true := hl a (List.mem_cons_self _ _)
    constructor
    · rw [List.cons_append, List.takeWhile_cons_of_pos ha, ih1]
    · rw [List.cons_append, List.dropWhile_cons_of_pos ha, ih2]

theorem classify_text_nil : classify (.text []) = none := rfl

theorem classify_number_int {D : List Char} (hD : D ≠ [])
    (hDd : ∀ c ∈ D, isDig c = true) :
    classify (.number D) = some (.int (digitsToNat D)) := by
  have hstrip : pyStrip D = D :=
    pyStrip_eq_self_of_all (fun c hc => isWs_of_isDig (hDd c hc))
  have htake : D.takeWhile isDig = D := takeWhile_eq_self_of_all hDd
  have hdrop : D.dropWhile isDig = [] := dropWhile_eq_nil_of_all hDd
  have hmf : matchFloat D = false := by
    unfold matchFloat
    rw [hdrop]
    simp
  unfold classify
  simp only [hstrip, hmf, Bool.false_eq_true, if_false]
  rw [if_pos]
  simp only [Bool.and_eq_true, Bool.not_eq_true', List.isEmpty_eq_false_iff_exists_mem]
  constructor
  · cases D with
    | nil => exact absurd rfl hD
    | cons a l => exact ⟨a, List.mem_cons_self _ _⟩
  · exact List.all_eq_true.mpr hDd

theorem classify_number_float {D F : List Char} (hD : D ≠ []) (hF : F ≠ [])
    (hDd : ∀ c ∈ D, isDig c = true) (hFd : ∀ c ∈ F, isDig c = true) :
    classify (.number (D ++ '.' :: F)) =
      some (.float ((digitsToNat D : ℚ) + (digitsToNat F : ℚ) / 10 ^ F.length)) := by
  have hws : ∀ c ∈ D ++ '.' :: F, isWs c = false := by
    intro c hc
    rcases List.mem_append.mp hc with hc | hc
    · exact isWs_of_isDig (hDd c hc)
    · rcases List.mem_cons.mp hc with hc | hc
      · subst hc; rfl
      · exact isWs_of_isDig (hFd c hc)
  have hstrip : pyStrip (D ++ '.' :: F) = D ++ '.' :: F := pyStrip_eq_self_of_all hws
  obtain ⟨htake, hdrop⟩ := takeWhile_append_not F hDd (show isDig '.' = false from rfl)
  have hmf : matchFloat (D ++ '.' :: F) = true := by
    unfold matchFloat
    rw [htake, hdrop]
    cases F with
    | nil => exact absurd rfl hF
    | cons f F' =>
      simp only [Bool.and_eq_true, Bool.not_eq_true', List.isEmpty_eq_false_iff_exists_mem]
      constructor
      · cases D with
        | nil => exact absurd rfl hD
        | cons a l => exact ⟨a, List.mem_cons_self _ _⟩
      · exact hFd f (List.mem_cons_self _ _)
  have hFtake : F.takeWhile isDig = F := takeWhile_eq_self_of_all hFd
  unfold classify
  simp only [hstrip, hmf, if_true]
  unfold decToRat
  simp only [htake, hdrop, hFtake]

theorem classify_text_space_unit {u : List Char} (hu : u ≠ [])
    (hud : ∀ c ∈ u, isDig c = false) (huw : ∀ c ∈ u, isWs c = false) :
    classify (.text (' ' :: u)) = some (.str u.asString) := by
  have hstrip : pyStrip (' ' :: u) = u := by
    rw [pyStrip_cons_ws (show isWs ' ' = true from rfl), pyStrip_eq_self_of_all huw]
  cases u with
  | nil => exact absurd rfl hu
  | cons a l =>
    have ha : isDig a = false := hud a (List.mem_cons_self _ _)
    have htake : (a :: l).takeWhile isDig = [] := by
      rw [List.takeWhile_cons_of_neg (by simp [ha])]
    have hmf : matchFloat (a :: l) = false := by
      unfold matchFloat
      rw [htake]
      simp
    have hdig : (a :: l).all isDig = false := by
      simp only [List.all_eq_false]
      exact ⟨a, List.mem_cons_self _ _, by simp [ha]⟩
    simp [classify, hstrip, hmf, hdig]

/-! ## Rounding lemmas -/

theorem roundHalfEven_nonneg {x : ℚ} (hx : 0 ≤ x) : 0 ≤ roundHalfEven x := by
  have hf : (0 : ℤ) ≤ ⌊x⌋ := Int.floor_nonneg.mpr hx
  unfold roundHalfEven
  split
  · exact hf
  · split
    · omega
    · split <;> omega

theorem roundHalfEven_sub_abs (x : ℚ) : |((roundHalfEven x : ℤ) : ℚ) - x| ≤ 1 / 2 := by
  have h1 : (⌊x⌋ : ℚ) ≤ x := Int.floor_le x
  have h2 : x < ⌊x⌋ + 1 := Int.lt_floor_add_one x
  unfold roundHalfEven
  split
  · rw [abs_le]
    constructor <;> push_cast <;> linarith
  · rename_i h
    push_neg at h
    split
    · rw [abs_le]
      constructor <;> push_cast <;> linarith
    · rename_i h3
      push_neg at h3
      have : x - ⌊x⌋ = 1 / 2 := le_antisymm h3 h
      split <;> rw [abs_le] <;> constructor <;> push_cast <;> linarith

theorem roundHalfEven_intCast (k : ℤ) : roundHalfEven ((k : ℤ) : ℚ) = k := by
  unfold roundHalfEven
  rw [Int.floor_intCast]
  split
  · rfl
  · rename_i h
    push_neg at h
    simp at h
    linarith

/-! ## `round_number` output shape -/

theorem stripTrailingZeros_frac_zero (A : List Char) :
    stripTrailingZeros (A ++ '.' :: ['0', '0']) = A := by
  unfold stripTrailingZeros
  simp [List.dropWhile]

theorem stripTrailingZeros_frac_tens (A : List Char) {c : Char}
    (h0 : (c == '0') = false) (hdot : c ≠ '.') :
    stripTrailingZeros (A ++ '.' :: [c, '0']) = A ++ '.' :: [c] := by
  unfold stripTrailingZeros
  rw [List.reverse_append]
  simp only [List.reverse_cons, List.reverse_nil, List.nil_append, List.cons_append,
    List.append_assoc, List.append_nil]
  simp only [List.dropWhile_cons, beq_self_eq_true, if_true, h0, Bool.false_eq_true, if_false]
  split
  · rename_i t heq
    cases heq
    exact absurd rfl hdot
  · simp

theorem stripTrailingZeros_frac_two (A : List Char) {c1 c2 : Char}
    (h0 : (c2 == '0') = false) (hdot : c2 ≠ '.') :
    stripTrailingZeros (A ++ '.' :: [c1, c2]) = A ++ '.' :: [c1, c2] := by
  unfold stripTrailingZeros
  rw [List.reverse_append]
  simp only [List.reverse_cons, List.reverse_nil, List.nil_append, List.cons_append,
    List.append_assoc, List.append_nil]
  simp only [List.dropWhile_cons, h0, Bool.false_eq_true, if_false]
  split
  · rename_i t heq
    cases heq
    exact absurd rfl hdot
  · simp

/-! ## Tokenizing rendered numbers -/

theorem fmtTwoDecimals_of_nonneg {q : ℚ} (hq : 0 ≤ q) :
    fmtTwoDecimals q =
      natDigits ((roundHalfEven (100 * q)).toNat / 100) ++
        '.' :: pad2 ((roundHalfEven (100 * q)).toNat % 100) := by
  have hn0 : 0 ≤ roundHalfEven (100 * q) := roundHalfEven_nonneg (by positivity)
  have habs : (roundHalfEven (100 * q)).natAbs = (roundHalfEven (100 * q)).toNat := by omega
  unfold fmtTwoDecimals
  rw [if_neg (by
    simp only [not_or, not_lt, not_and]
    exact ⟨hn0, fun _ => hq⟩), habs]
  simp

theorem asString_toList (l : List Char) : (l.asString).toList = l := rfl

theorem toList_append_append (a : String) (u : List Char) :
    (a ++ " " ++ u.asString).toList = a.toList ++ ' ' :: u := by
  show (a ++ " " ++ u.asString).data = a.data ++ ' ' :: u
  rw [String.data_append, String.data_append, List.append_assoc]
  rfl

theorem beq_false_ne {c d : Char} (h : (c == d) = false) : c ≠ d := by
  simpa using h

theorem tokenize_round_number_unit {q : ℚ} (hq : 0 ≤ q) (u : List Char) (hu : u ≠ [])
    (hud : ∀ c ∈ u, isDig c = false) (huw : ∀ c ∈ u, isWs c = false) :
    ∃ t : Token,
      tokenize (round_number q false ++ " " ++ u.asString) = [t, Token.str u.asString] ∧
        tokenNum t = some (((roundHalfEven (100 * q) : ℤ) : ℚ) / 100) := by
  set m := (roundHalfEven (100 * q)).toNat with hm
  have hn0 : 0 ≤ roundHalfEven (100 * q) := roundHalfEven_nonneg (by positivity)
  have hcast : ((roundHalfEven (100 * q) : ℤ) : ℚ) = (m : ℚ) := by
    show _ = (((roundHalfEven (100 * q)).toNat : ℕ) : ℚ)
    exact_mod_cast (Int.toNat_of_nonneg hn0).symm
  have hrlt : m % 100 < 100 := Nat.mod_lt _ (by norm_num)
  set D := natDigits (m / 100) with hD
  have hDne : D ≠ [] := natDigits_ne_nil _
  have hDd : ∀ c ∈ D, isDig c = true := natDigits_all_digit _
  have hDval : digitsToNat D = m / 100 := digitsToNat_natDigits _
  have hfmt : fmtTwoDecimals q = D ++ '.' :: pad2 (m % 100) := fmtTwoDecimals_of_nonneg hq
  have hrn : round_number q false = (stripTrailingZeros (fmtTwoDecimals q)).asString := rfl
  have hlist : (round_number q false ++ " " ++ u.asString).toList
      = stripTrailingZeros (fmtTwoDecimals q) ++ ' ' :: u := by
    rw [toList_append_append, hrn, asString_toList]
  by_cases hr0 : m % 100 = 0
  · -- the two fractional digits are zero: they and the dot are stripped
    have hstrip : stripTrailingZeros (fmtTwoDecimals q) = D := by
      rw [hfmt, hr0, show pad2 0 = ['0', '0'] from rfl]
      exact stripTrailingZeros_frac_zero D
    refine ⟨Token.int (digitsToNat D), ?_, ?_⟩
    · unfold tokenize
      rw [hlist, hstrip, splitGo_number_then_space D u hDne hDd hud]
      simp [List.filterMap_cons, classify_text_nil, classify_number_int hDne hDd,
        classify_text_space_unit hu hud huw]
    · have h100 : (100 : ℕ) ∣ m := Nat.dvd_of_mod_eq_zero hr0
      simp only [tokenNum, hDval, hcast, Option.some.injEq]
      rw [eq_div_iff (by norm_num)]
      exact_mod_cast congrArg (Nat.cast : ℕ → ℚ) (Nat.div_mul_cancel h100)
  · by_cases hr10 : m % 100 % 10 = 0
    · -- only the last digit is zero: strip one digit, keep the dot
      have hc10 : m % 100 / 10 < 10 := by omega
      have hcne : m % 100 / 10 ≠ 0 := by omega
      set c := digitChar (m % 100 / 10) with hc
      have hF : pad2 (m % 100) = [c, '0'] := by
        unfold pad2
        rw [hr10]
        rfl
      have hstrip : stripTrailingZeros (fmtTwoDecimals q) = D ++ '.' :: [c] := by
        rw [hfmt, hF]
        exact stripTrailingZeros_frac_tens D
          (by rw [hc, digitChar_eq_zero_iff hc10]; simp [hcne])
          (beq_false_ne (digitChar_ne_dot _))
      have hFd : ∀ a ∈ [c], isDig a = true := by
        intro a ha
        simp at ha
        subst ha
        exact isDig_digitChar _
      refine ⟨Token.float ((digitsToNat D : ℚ) + (digitsToNat [c] : ℚ) / 10 ^ ([c] : List Char).length), ?_, ?_⟩
      · unfold tokenize
        rw [hlist, hstrip, splitGo_number_dot_then_space D [c] u hDne (by simp) hDd hFd hud]
        simp [List.filterMap_cons, classify_text_nil,
          classify_number_float hDne (by simp) hDd hFd,
          classify_text_space_unit hu hud huw]
      · have hcval : digitsToNat [c] = m % 100 / 10 := by
          rw [hc]
          show 10 * 0 + digitVal (digitChar (m % 100 / 10)) = m % 100 / 10
          rw [digitVal_digitChar hc10]
          omega
        simp only [tokenNum, hDval, hcval, hcast, List.length_singleton, pow_one,
          Option.some.injEq]
        have hnat : (m : ℚ) = ((m / 100 : ℕ) : ℚ) * 100 + ((m % 100 / 10 : ℕ) : ℚ) * 10 := by
          exact_mod_cast congrArg (Nat.cast : ℕ → ℚ)
            (by omega : m = m / 100 * 100 + m % 100 / 10 * 10)
        rw [eq_div_iff (show (100 : ℚ) ≠ 0 by norm_num), hnat]
        ring
    · -- last digit non-zero: nothing is stripped
      have hb10 : m % 100 % 10 < 10 := by omega
      have hstrip : stripTrailingZeros (fmtTwoDecimals q) = D ++ '.' :: pad2 (m % 100) := by
        rw [hfmt, show pad2 (m % 100) = [digitChar (m % 100 / 10), digitChar (m % 100 % 10)] from rfl]
        exact stripTrailingZeros_frac_two D
          (by rw [digitChar_eq_zero_iff hb10]; simp [hr10])
          (beq_false_ne (digitChar_ne_dot _))
      have hFd : ∀ a ∈ pad2 (m % 100), isDig a = true := by
        intro a ha
        unfold pad2 at ha
        simp at ha
        rcases ha with ha | ha <;> subst ha <;> exact isDig_digitChar _
      have hFne : pad2 (m % 100) ≠ [] := by simp [pad2]
      refine ⟨Token.float ((digitsToNat D : ℚ) +
        (digitsToNat (pad2 (m % 100)) : ℚ) / 10 ^ (pad2 (m % 100)).length), ?_, ?_⟩
      · unfold tokenize
        rw [hlist, hstrip, splitGo_number_dot_then_space D (pad2 (m % 100)) u hDne hFne hDd hFd hud]
        simp [List.filterMap_cons, classify_text_nil,
          classify_number_float hDne hFne hDd hFd,
          classify_text_space_unit hu hud huw]
      · have hpval : digitsToNat (pad2 (m % 100)) = m % 100 := by
          unfold pad2
          show 10 * (10 * 0 + digitVal (digitChar (m % 100 / 10))) + digitVal (digitChar (m % 100 % 10)) = m % 100
          rw [digitVal_digitChar (by omega), digitVal_digitChar hb10]
          omega
        have hplen : (pad2 (m % 100)).length = 2 := rfl
        simp only [tokenNum, hDval, hpval, hcast, hplen, Option.some.injEq]
        have hnat : (m : ℚ) = ((m / 100 : ℕ) : ℚ) * 100 + ((m % 100 : ℕ) : ℚ) := by
          exact_mod_cast congrArg (Nat.cast : ℕ → ℚ)
            (by omega : m = m / 100 * 100 + m % 100)
        rw [show ((10 : ℚ) ^ 2) = 100 by norm_num,
          eq_div_iff (show (100 : ℚ) ≠ 0 by norm_num), hnat]
        ring

theorem toList_asString_self (w : String) : w.toList.asString = w := rfl

theorem tokenize_intRender_unit {x : ℤ} (hx : 0 ≤ x) (u : List Char) (hu : u ≠ [])
    (hud : ∀ c ∈ u, isDig c = false) (huw : ∀ c ∈ u, isWs c = false) :
    tokenize (intRender x ++ " " ++ u.asString) = [Token.int x, Token.str u.asString] := by
  have hrender : intRender x = (natDigits x.toNat).asString := by
    unfold intRender
    rw [if_neg (not_lt.mpr hx), show x.natAbs = x.toNat from by omega]
  unfold tokenize
  rw [show (intRender x ++ " " ++ u.asString).toList = natDigits x.toNat ++ ' ' :: u from by
      rw [toList_append_append, hrender, asString_toList],
    splitGo_number_then_space (natDigits x.toNat) u (natDigits_ne_nil _)
      (natDigits_all_digit _) hud]
  simp [List.filterMap_cons, classify_text_nil,
    classify_number_int (natDigits_ne_nil _) (natDigits_all_digit _),
    classify_text_space_unit hu hud huw, digitsToNat_natDigits, Int.toNat_of_nonneg hx]

/-! ## Evaluating the parsers on shaped token lists -/

theorem parse_size_two_tokens {s : String} {t : Token} {q : ℚ} {u : String} {e : UnitInfo}
    (htok : tokenize s = [t, Token.str u]) (hnum : tokenNum t = some q)
    (hmatch : sizeUnitMatch u = some e) :
    parse_size s = .ok (intTrunc (q * e.divider)) := by
  unfold parse_size
  rw [htok]
  simp only [hnum, hmatch]

theorem parse_length_two_tokens {s : String} {t : Token} {q : ℚ} {u : String} {e : UnitInfo}
    (htok : tokenize s = [t, Token.str u]) (hnum : tokenNum t = some q)
    (hmatch : lengthUnitMatch u = some e) :
    parse_length s = .ok (q * e.divider) := by
  unfold parse_length
  rw [htok]
  simp only [hnum, hmatch]

theorem parse_timespan_two_tokens {s : String} {t : Token} {q : ℚ} {u : String}
    {e : TimeUnitInfo}
    (htok : tokenize s = [t, Token.str u]) (hnum : tokenNum t = some q)
    (hmatch : timespanMatch u = some e) :
    parse_timespan s = .ok (q * e.divider) := by
  unfold parse_timespan
  rw [htok]
  simp only [hnum, hmatch]

/-! ## Truncation lemmas -/

theorem intTrunc_of_nonneg {q : ℚ} (h : 0 ≤ q) : intTrunc q = ⌊q⌋ := if_pos h

theorem intTrunc_intCast (n : ℤ) : intTrunc ((n : ℤ) : ℚ) = n := by
  unfold intTrunc
  split
  · exact Int.floor_intCast n
  · rw [← Int.cast_neg, Int.floor_intCast]
    omega

theorem trunc_round_bound (x : ℤ) (d : ℚ) (hd : 0 < d) (hx : (0 : ℚ) ≤ (x : ℚ)) :
    |((intTrunc (((roundHalfEven (100 * ((x : ℚ) / d)) : ℤ) : ℚ) / 100 * d) : ℤ) : ℚ) - (x : ℚ)|
      ≤ d * 5 / 1000 + 1 := by
  set y : ℚ := 100 * ((x : ℚ) / d) with hy
  have hy0 : 0 ≤ y := by positivity
  set n := roundHalfEven y with hn
  have hn0 : 0 ≤ n := roundHalfEven_nonneg hy0
  have hnq : (0 : ℚ) ≤ ((n : ℤ) : ℚ) := by exact_mod_cast hn0
  have habs : |((n : ℤ) : ℚ) - y| ≤ 1 / 2 := roundHalfEven_sub_abs y
  set z : ℚ := ((n : ℤ) : ℚ) / 100 * d with hz
  have hz0 : 0 ≤ z := by positivity
  have htr : intTrunc z = ⌊z⌋ := intTrunc_of_nonneg hz0
  have h1 : (⌊z⌋ : ℚ) ≤ z := Int.floor_le z
  have h2 : z < ⌊z⌋ + 1 := Int.lt_floor_add_one z
  have hzx : z - (x : ℚ) = (((n : ℤ) : ℚ) - y) * (d / 100) := by
    rw [hz, hy]
    field_simp
  have hxz : |z - (x : ℚ)| ≤ d / 200 := by
    rw [hzx, abs_mul, abs_of_pos (by positivity : (0 : ℚ) < d / 100)]
    calc |((n : ℤ) : ℚ) - y| * (d / 100) ≤ 1 / 2 * (d / 100) := by
          apply mul_le_mul_of_nonneg_right habs
          positivity
      _ = d / 200 := by ring
  rw [htr]
  rw [abs_le] at hxz
  rw [abs_le]
  constructor
  · linarith [hxz.1, hxz.2, h1, h2]
  · linarith [hxz.1, hxz.2, h1, h2]

/-! ## Evaluating `format_size` on magnitude ranges -/

theorem sizeScan_cons (u : UnitInfo) (rest : List UnitInfo) (n : ℤ) (kw : Bool) :
    sizeScan (u :: rest) n kw =
      if u.divider ≤ (n : ℚ) then
        some (pluralize (.str (round_number ((n : ℚ) / u.divider) kw)) u.singular u.plural)
      else sizeScan rest n kw := rfl

theorem disk_units_reversed :
    disk_size_units.reverse =
      [⟨"p", 1024 ^ 5, "PB", "PB"⟩, ⟨"t", 1024 ^ 4, "TB", "TB"⟩,
       ⟨"g", 1024 ^ 3, "GB", "GB"⟩, ⟨"m", 1024 ^ 2, "MB", "MB"⟩,
       ⟨"k", 1024, "KB", "KB"⟩, ⟨"b", 1, "byte", "bytes"⟩] := rfl

theorem pluralize_cases (c : Count) (sg pl : String) (hpl : pl ≠ "") :
    pluralize c sg pl = c.render ++ " " ++ (if ⌊c.value⌋ = 1 then sg else pl) := by
  simp only [pluralize]
  rw [if_neg hpl]

theorem pluralize_same (c : Count) (w : String) (hw : w ≠ "") :
    pluralize c w w = c.render ++ " " ++ w := by
  rw [pluralize_cases c w w hw, ite_self]

theorem format_size_eval_pb {x : ℤ} (h1 : (1024 : ℚ) ^ 5 ≤ (x : ℚ)) :
    format_size x false =
      pluralize (.str (round_number ((x : ℚ) / 1024 ^ 5) false)) "PB" "PB" := by
  unfold format_size
  rw [disk_units_reversed, sizeScan_cons, if_pos h1]
  rfl

theorem format_size_eval_tb {x : ℤ} (h1 : (1024 : ℚ) ^ 4 ≤ (x : ℚ))
    (h2 : (x : ℚ) < 1024 ^ 5) :
    format_size x false =
      pluralize (.str (round_number ((x : ℚ) / 1024 ^ 4) false)) "TB" "TB" := by
  unfold format_size
  rw [disk_units_reversed, sizeScan_cons, if_neg (by norm_num; linarith),
    sizeScan_cons, if_pos h1]
  rfl

theorem format_size_eval_gb {x : ℤ} (h1 : (1024 : ℚ) ^ 3 ≤ (x : ℚ))
    (h2 : (x : ℚ) < 1024 ^ 4) :
    format_size x false =
      pluralize (.str (round_number ((x : ℚ) / 1024 ^ 3) false)) "GB" "GB" := by
  unfold format_size
  rw [disk_units_reversed, sizeScan_cons, if_neg (by norm_num; nlinarith),
    sizeScan_cons, if_neg (by norm_num; nlinarith), sizeScan_cons, if_pos h1]
  rfl

theorem format_size_eval_mb {x : ℤ} (h1 : (1024 : ℚ) ^ 2 ≤ (x : ℚ))
    (h2 : (x : ℚ) < 1024 ^ 3) :
    format_size x false =
      pluralize (.str (round_number ((x : ℚ) / 1024 ^ 2) false)) "MB" "MB" := by
  unfold format_size
  rw [disk_units_reversed, sizeScan_cons, if_neg (by norm_num; nlinarith),
    sizeScan_cons, if_neg (by norm_num; nlinarith),
    sizeScan_cons, if_neg (by norm_num; nlinarith), sizeScan_cons, if_pos h1]
  rfl

theorem format_size_eval_kb {x : ℤ} (h1 : (1024 : ℚ) ≤ (x : ℚ))
    (h2 : (x : ℚ) < 1024 ^ 2) :
    format_size x false =
      pluralize (.str (round_number ((x : ℚ) / 1024) false)) "KB" "KB" := by
  unfold format_size
  rw [disk_units_reversed, sizeScan_cons, if_neg (by norm_num; nlinarith),
    sizeScan_cons, if_neg (by norm_num; nlinarith),
    sizeScan_cons, if_neg (by norm_num; nlinarith),
    sizeScan_cons, if_neg (by norm_num; nlinarith), sizeScan_cons, if_pos h1]
  rfl

theorem format_size_eval_byte {x : ℤ} (h1 : (1 : ℚ) ≤ (x : ℚ)) (h2 : (x : ℚ) < 1024) :
    format_size x false =
      pluralize (.str (round_number ((x : ℚ) / 1) false)) "byte" "bytes" := by
  unfold format_size
  rw [disk_units_reversed, sizeScan_cons, if_neg (by norm_num; nlinarith),
    sizeScan_cons, if_neg (by norm_num; nlinarith),
    sizeScan_cons, if_neg (by norm_num; nlinarith),
    sizeScan_cons, if_neg (by norm_num; nlinarith),
    sizeScan_cons, if_neg (by norm_num; nlinarith), sizeScan_cons, if_pos h1]
  rfl

/-- The divider of the unit that `format_size`'s scan selects for a byte
count (`1` for the base-unit fallback). -/
def chosenDivider (x : ℤ) : ℚ :=
  match disk_size_units.reverse.find? (fun u => decide (u.divider ≤ (x : ℚ))) with
  | some u => u.divider
  | none => 1

theorem chosenDivider_pb {x : ℤ} (h1 : (1024 : ℚ) ^ 5 ≤ (x : ℚ)) :
    chosenDivider x = 1024 ^ 5 := by
  unfold chosenDivider
  rw [disk_units_reversed, List.find?_cons_of_pos _ (by simpa using h1)]

theorem chosenDivider_tb {x : ℤ} (h1 : (1024 : ℚ) ^ 4 ≤ (x : ℚ))
    (h2 : (x : ℚ) < 1024 ^ 5) : chosenDivider x = 1024 ^ 4 := by
  unfold chosenDivider
  rw [disk_units_reversed,
    List.find?_cons_of_neg _ (by simp only [decide_eq_true_eq]; norm_num; nlinarith),
    List.find?_cons_of_pos _ (by simpa using h1)]

theorem chosenDivider_gb {x : ℤ} (h1 : (1024 : ℚ) ^ 3 ≤ (x : ℚ))
    (h2 : (x : ℚ) < 1024 ^ 4) : chosenDivider x = 1024 ^ 3 := by
  unfold chosenDivider
  rw [disk_units_reversed,
    List.find?_cons_of_neg _ (by simp only [decide_eq_true_eq]; norm_num; nlinarith),
    List.find?_cons_of_neg _ (by simp only [decide_eq_true_eq]; norm_num; nlinarith),
    List.find?_cons_of_pos _ (by simpa using h1)]

theorem chosenDivider_mb {x : ℤ} (h1 : (1024 : ℚ) ^ 2 ≤ (x : ℚ))
    (h2 : (x : ℚ) < 1024 ^ 3) : chosenDivider x = 1024 ^ 2 := by
  unfold chosenDivider
  rw [disk_units_reversed,
    List.find?_cons_of_neg _ (by simp only [decide_eq_true_eq]; norm_num; nlinarith),
    List.find?_cons_of_neg _ (by simp only [decide_eq_true_eq]; norm_num; nlinarith),
    List.find?_cons_of_neg _ (by simp only [decide_eq_true_eq]; norm_num; nlinarith),
    List.find?_cons_of_pos _ (by simpa using h1)]

theorem chosenDivider_kb {x : ℤ} (h1 : (1024 : ℚ) ≤ (x : ℚ))
    (h2 : (x : ℚ) < 1024 ^ 2) : chosenDivider x = 1024 := by
  unfold chosenDivider
  rw [disk_units_reversed,
    List.find?_cons_of_neg _ (by simp only [decide_eq_true_eq]; norm_num; nlinarith),
    List.find?_cons_of_neg _ (by simp only [decide_eq_true_eq]; norm_num; nlinarith),
    List.find?_cons_of_neg _ (by simp only [decide_eq_true_eq]; norm_num; nlinarith),
    List.find?_cons_of_neg _ (by simp only [decide_eq_true_eq]; norm_num; nlinarith),
    List.find?_cons_of_pos _ (by simpa using h1)]

theorem chosenDivider_byte {x : ℤ} (h1 : (1 : ℚ) ≤ (x : ℚ)) (h2 : (x : ℚ) < 1024) :
    chosenDivider x = 1 := by
  unfold chosenDivider
  rw [disk_units_reversed,
    List.find?_cons_of_neg _ (by simp only [decide_eq_true_eq]; norm_num; nlinarith),
    List.find?_cons_of_neg _ (by simp only [decide_eq_true_eq]; norm_num; nlinarith),
    List.find?_cons_of_neg _ (by simp only [decide_eq_true_eq]; norm_num; nlinarith),
    List.find?_cons_of_neg _ (by simp only [decide_eq_true_eq]; norm_num; nlinarith),
    List.find?_cons_of_neg _ (by simp only [decide_eq_true_eq]; norm_num; nlinarith),
    List.find?_cons_of_pos _ (by simpa using h1)]

theorem pluralize_str_cases (s sg pl : String) (hpl : pl ≠ "") :
    pluralize (.str s) sg pl =
      s ++ " " ++ (if ⌊(Count.str s).value⌋ = 1 then sg else pl) :=
  pluralize_cases (.str s) sg pl hpl

theorem pluralize_str_same (s w : String) (hw : w ≠ "") :
    pluralize (.str s) w w = s ++ " " ++ w :=
  pluralize_same (.str s) w hw

/-- Round trip through a selected scale unit: format with divider `d`,
tokenize, rescale and truncate. -/
theorem roundtrip_scaled {x : ℤ} (hx0 : (0 : ℚ) ≤ (x : ℚ)) {d : ℚ} (hd : 0 < d)
    {w : String} {e : UnitInfo}
    (hw1 : w.toList ≠ []) (hw2 : ∀ c ∈ w.toList, isDig c = false)
    (hw3 : ∀ c ∈ w.toList, isWs c = false)
    (hfmt : format_size x false = round_number ((x : ℚ) / d) false ++ " " ++ w)
    (hmatch : sizeUnitMatch w = some e) (hed : e.divider = d) :
    ∃ r : ℤ, parse_size (format_size x false) = .ok r ∧
      |((r : ℚ) - (x : ℚ))| ≤ d * 5 / 1000 + 1 := by
  obtain ⟨t, htok, hnum⟩ :=
    @tokenize_round_number_unit ((x : ℚ) / d) (div_nonneg hx0 (le_of_lt hd)) w.toList
      hw1 hw2 hw3
  rw [toList_asString_self] at htok
  rw [← hfmt] at htok
  have hres := parse_size_two_tokens htok hnum hmatch
  rw [hed] at hres
  exact ⟨_, hres, trunc_round_bound x d hd hx0⟩

/-! ## Claim C1 -/

/-- C1, counterexample: the claimed bound
`|parse_size(format_size(x)) - x| <= 0.005 * d` fails at `x = 1070`:
`format_size 1070 = "1.04 KB"` (divider `d = 1024`), which parses back to
`int(1.04 * 1024) = 1064`, an error of `6 > 0.005 * 1024 = 5.12`. -/
theorem c1_roundtrip_tolerance_counterexample :
    format_size 1070 false = "1.04 KB" ∧
    parse_size (format_size 1070 false) = Except.ok 1064 ∧
    chosenDivider 1070 = 1024 ∧
    ¬(|((1064 : ℚ) - (1070 : ℚ))| ≤ chosenDivider 1070 * 5 / 1000) := by
  refine ⟨by with_unfolding_all rfl, by with_unfolding_all rfl,
    by with_unfolding_all rfl, by with_unfolding_all decide⟩

/-- C1, amended: for every nonnegative byte count `x`,
`parse_size (format_size x)` succeeds and recovers `x` up to the
two-decimal rounding tolerance of the selected unit plus one byte of
`int()` truncation: `|parse_size (format_size x) - x| ≤ 0.005 * d + 1`,
where `d` is the divider of the unit `format_size` selects for `x`. -/
theorem c1_roundtrip_within_unit_amended :
    ∀ x : ℤ, 0 ≤ x →
      ∃ r : ℤ, parse_size (format_size x false) = Except.ok r ∧
        |((r : ℚ) - (x : ℚ))| ≤ chosenDivider x * 5 / 1000 + 1 := by
  intro x hx
  have hxq : (0 : ℚ) ≤ (x : ℚ) := by exact_mod_cast hx
  by_cases h5 : (1024 : ℚ) ^ 5 ≤ (x : ℚ)
  · rw [chosenDivider_pb h5]
    refine roundtrip_scaled hxq (by norm_num) (by decide) (by decide) (by decide) ?_
      (show sizeUnitMatch "PB" = some ⟨"p", 1024 ^ 5, "PB", "PB"⟩ from by decide) rfl
    rw [format_size_eval_pb h5, pluralize_str_same _ _ (by decide)]
  push_neg at h5
  by_cases h4 : (1024 : ℚ) ^ 4 ≤ (x : ℚ)
  · rw [chosenDivider_tb h4 h5]
    refine roundtrip_scaled hxq (by norm_num) (by decide) (by decide) (by decide) ?_
      (show sizeUnitMatch "TB" = some ⟨"t", 1024 ^ 4, "TB", "TB"⟩ from by decide) rfl
    rw [format_size_eval_tb h4 h5, pluralize_str_same _ _ (by decide)]
  push_neg at h4
  by_cases h3 : (1024 : ℚ) ^ 3 ≤ (x : ℚ)
  · rw [chosenDivider_gb h3 h4]
    refine roundtrip_scaled hxq (by norm_num) (by decide) (by decide) (by decide) ?_
      (show sizeUnitMatch "GB" = some ⟨"g", 1024 ^ 3, "GB", "GB"⟩ from by decide) rfl
    rw [format_size_eval_gb h3 h4, pluralize_str_same _ _ (by decide)]
  push_neg at h3
  by_cases h2 : (1024 : ℚ) ^ 2 ≤ (x : ℚ)
  · rw [chosenDivider_mb h2 h3]
    refine roundtrip_scaled hxq (by norm_num) (by decide) (by decide) (by decide) ?_
      (show sizeUnitMatch "MB" = some ⟨"m", 1024 ^ 2, "MB", "MB"⟩ from by decide) rfl
    rw [format_size_eval_mb h2 h3, pluralize_str_same _ _ (by decide)]
  push_neg at h2
  by_cases h1 : (1024 : ℚ) ≤ (x : ℚ)
  · rw [chosenDivider_kb h1 h2]
    refine roundtrip_scaled hxq (by norm_num) (by decide) (by decide) (by decide) ?_
      (show sizeUnitMatch "KB" = some ⟨"k", 1024, "KB", "KB"⟩ from by decide) rfl
    rw [format_size_eval_kb h1 h2, pluralize_str_same _ _ (by decide)]
  push_neg at h1
  by_cases h0 : (1 : ℚ) ≤ (x : ℚ)
  · rw [chosenDivider_byte h0 h1]
    have hfmt0 := format_size_eval_byte h0 h1
    rw [pluralize_str_cases _ _ _ (by decide)] at hfmt0
    by_cases hone : ⌊(Count.str (round_number ((x : ℚ) / 1) false)).value⌋ = 1
    · rw [if_pos hone] at hfmt0
      exact roundtrip_scaled hxq (by norm_num) (by decide) (by decide) (by decide) hfmt0
        (show sizeUnitMatch "byte" = some ⟨"b", 1, "byte", "bytes"⟩ from by decide) rfl
    · rw [if_neg hone] at hfmt0
      exact roundtrip_scaled hxq (by norm_num) (by decide) (by decide) (by decide) hfmt0
        (show sizeUnitMatch "bytes" = some ⟨"b", 1, "byte", "bytes"⟩ from by decide) rfl
  push_neg at h0
  have hx0 : x = 0 := by
    have hlt : x < 1 := by exact_mod_cast h0
    omega
  subst hx0
  refine ⟨0, by with_unfolding_all rfl, ?_⟩
  rw [show chosenDivider 0 = 1 from by with_unfolding_all rfl]
  norm_num

/-- C1, witness for the amended round-trip bound at `x = 1070`. -/
theorem c1_roundtrip_within_unit_amended_witness :
    ∃ r : ℤ, parse_size (format_size 1070 false) = Except.ok r ∧
      |((r : ℚ) - ((1070 : ℤ) : ℚ))| ≤ chosenDivider 1070 * 5 / 1000 + 1 :=
  c1_roundtrip_within_unit_amended 1070 (by norm_num)

/-! ## Claim C2 -/

/-- C2: for every nonnegative magnitude, `format_size` selects the largest
unit of `disk_size_units` whose divider is at most the magnitude (the loop
scans the table from largest to smallest divider), and falls back to the
base `byte` unit when the magnitude is below every divider; in particular
`format_size 0 = "0 bytes"`, `format_size 1024 = "1 KB"` and
`format_size (1024 ^ 3 * 4) = "4 GB"`. -/
theorem c2_format_size_selects_largest_unit :
    (∀ x : ℤ, 0 ≤ x →
      (∃ u ∈ disk_size_units, u.divider ≤ (x : ℚ) ∧
        (∀ v ∈ disk_size_units, v.divider ≤ (x : ℚ) → v.divider ≤ u.divider) ∧
        format_size x false =
          pluralize (.str (round_number ((x : ℚ) / u.divider) false)) u.singular u.plural) ∨
      ((∀ u ∈ disk_size_units, (x : ℚ) < u.divider) ∧
        format_size x false = pluralize (.int x) "byte" "")) ∧
    format_size 0 false = "0 bytes" ∧
    format_size 1024 false = "1 KB" ∧
    format_size (1024 ^ 3 * 4) false = "4 GB" := by
  refine ⟨?_, by with_unfolding_all rfl, by with_unfolding_all rfl, by with_unfolding_all rfl⟩
  intro x hx
  have hxq : (0 : ℚ) ≤ (x : ℚ) := by exact_mod_cast hx
  by_cases h5 : (1024 : ℚ) ^ 5 ≤ (x : ℚ)
  · refine Or.inl ⟨⟨"p", 1024 ^ 5, "PB", "PB"⟩, by simp [disk_size_units], h5, ?_,
      format_size_eval_pb h5⟩
    intro v hv hvx
    fin_cases hv <;> norm_num
  push_neg at h5
  by_cases h4 : (1024 : ℚ) ^ 4 ≤ (x : ℚ)
  · refine Or.inl ⟨⟨"t", 1024 ^ 4, "TB", "TB"⟩, by simp [disk_size_units], h4, ?_,
      format_size_eval_tb h4 h5⟩
    intro v hv hvx
    fin_cases hv <;> norm_num <;> norm_num at hvx <;> nlinarith
  push_neg at h4
  by_cases h3 : (1024 : ℚ) ^ 3 ≤ (x : ℚ)
  · refine Or.inl ⟨⟨"g", 1024 ^ 3, "GB", "GB"⟩, by simp [disk_size_units], h3, ?_,
      format_size_eval_gb h3 h4⟩
    intro v hv hvx
    fin_cases hv <;> norm_num <;> norm_num at hvx <;> nlinarith
  push_neg at h3
  by_cases h2 : (1024 : ℚ) ^ 2 ≤ (x : ℚ)
  · refine Or.inl ⟨⟨"m", 1024 ^ 2, "MB", "MB"⟩, by simp [disk_size_units], h2, ?_,
      format_size_eval_mb h2 h3⟩
    intro v hv hvx
    fin_cases hv <;> norm_num <;> norm_num at hvx <;> nlinarith
  push_neg at h2
  by_cases h1 : (1024 : ℚ) ≤ (x : ℚ)
  · refine Or.inl ⟨⟨"k", 1024, "KB", "KB"⟩, by simp [disk_size_units], h1, ?_,
      format_size_eval_kb h1 h2⟩
    intro v hv hvx
    fin_cases hv <;> norm_num <;> norm_num at hvx <;> nlinarith
  push_neg at h1
  by_cases h0 : (1 : ℚ) ≤ (x : ℚ)
  · refine Or.inl ⟨⟨"b", 1, "byte", "bytes"⟩, by simp [disk_size_units], h0, ?_,
      format_size_eval_byte h0 h1⟩
    intro v hv hvx
    fin_cases hv <;> norm_num <;> norm_num at hvx <;> nlinarith
  push_neg at h0
  have hx0 : x = 0 := by
    have hlt : x < 1 := by exact_mod_cast h0
    omega
  subst hx0
  refine Or.inr ⟨?_, by with_unfolding_all rfl⟩
  intro u hu
  fin_cases hu <;> norm_num

/-- C2, witness: the selection property instantiated at `x = 2048`. -/
theorem c2_format_size_selects_largest_unit_witness :
    (∃ u ∈ disk_size_units, u.divider ≤ ((2048 : ℤ) : ℚ) ∧
      (∀ v ∈ disk_size_units, v.divider ≤ ((2048 : ℤ) : ℚ) → v.divider ≤ u.divider) ∧
      format_size 2048 false =
        pluralize (.str (round_number (((2048 : ℤ) : ℚ) / u.divider) false)) u.singular u.plural) ∨
    ((∀ u ∈ disk_size_units, ((2048 : ℤ) : ℚ) < u.divider) ∧
      format_size 2048 false = pluralize (.int 2048) "byte" "") :=
  c2_format_size_selects_largest_unit.1 2048 (by norm_num)

/-! ## Claims C3 and C4 -/

theorem parse_size_single_num {s : String} {t : Token} {q : ℚ}
    (htok : tokenize s = [t]) (hnum : tokenNum t = some q) :
    parse_size s = .ok (intTrunc q) := by
  unfold parse_size
  rw [htok]
  simp only [hnum]

theorem parse_length_single_num {s : String} {t : Token} {q : ℚ}
    (htok : tokenize s = [t]) (hnum : tokenNum t = some q) :
    parse_length s = .ok ((intTrunc q : ℤ) : ℚ) := by
  unfold parse_length
  rw [htok]
  simp only [hnum]

theorem parse_timespan_single_num {s : String} {t : Token} {q : ℚ}
    (htok : tokenize s = [t]) (hnum : tokenNum t = some q) :
    parse_timespan s = .ok q := by
  unfold parse_timespan
  rw [htok]
  simp only [hnum]

/-- C3, counterexample: on `"1.5 b"` the matched entry is the byte unit
with divider 1, but `parse_size` returns `int(1.5 * 1) = 1`, not the
product `1.5` claimed by "returns the numeric token multiplied by that
entry's divider". -/
theorem c3_exact_product_counterexample :
    tokenize "1.5 b" = [Token.float (3 / 2), Token.str "b"] ∧
    sizeUnitMatch "b" = some ⟨"b", 1, "byte", "bytes"⟩ ∧
    parse_size "1.5 b" = Except.ok 1 ∧
    ¬(((1 : ℤ) : ℚ) = (3 / 2) * 1) := by
  refine ⟨by with_unfolding_all rfl, by with_unfolding_all rfl,
    by with_unfolding_all rfl, by norm_num⟩

/-- C3, amended: for every input that tokenizes to a number followed by a
string, `parse_size` lower-cases the string token, takes the first entry
of `disk_size_units` (in the table's ascending order) whose prefix key is
a prefix of it, and returns `int()` of the numeric token times that
entry's divider, i.e. the product truncated toward zero (`intTrunc` is
the floor on nonnegative values); in particular
`parse_size "1.5 GB" = 1.5 * 1024^3 = 1610612736` exactly, the product
being integral there. -/
theorem c3_parse_size_prefix_match_amended :
    (∀ (s : String) (t : Token) (q : ℚ) (u : String) (e : UnitInfo),
      tokenize s = [t, Token.str u] → tokenNum t = some q → sizeUnitMatch u = some e →
      parse_size s = Except.ok (intTrunc (q * e.divider))) ∧
    (∀ q : ℚ, 0 ≤ q →
      ((intTrunc q : ℤ) : ℚ) ≤ q ∧ q < ((intTrunc q : ℤ) : ℚ) + 1) ∧
    parse_size "1.5 GB" = Except.ok 1610612736 ∧
    (1610612736 : ℤ) = intTrunc ((3 / 2) * 1024 ^ 3) := by
  refine ⟨fun s t q u e htok hnum hmatch => parse_size_two_tokens htok hnum hmatch,
    ?_, by with_unfolding_all rfl, by with_unfolding_all rfl⟩
  intro q hq
  rw [intTrunc_of_nonneg hq]
  exact ⟨Int.floor_le q, Int.lt_floor_add_one q⟩

/-- C3, witness: the two-token rule applied to `"1.5 GB"` and the
truncation bounds at `q = 3/2`. -/
theorem c3_parse_size_prefix_match_amended_witness :
    parse_size "1.5 GB" = Except.ok (intTrunc ((3 / 2 : ℚ) * (1024 ^ 3 : ℚ))) ∧
    ((intTrunc (3 / 2 : ℚ) : ℤ) : ℚ) ≤ 3 / 2 ∧
    (3 / 2 : ℚ) < ((intTrunc (3 / 2 : ℚ) : ℤ) : ℚ) + 1 :=
  ⟨c3_parse_size_prefix_match_amended.1 "1.5 GB" (Token.float (3 / 2)) (3 / 2) "GB"
      ⟨"g", 1024 ^ 3, "GB", "GB"⟩ (by with_unfolding_all rfl) rfl
      (by with_unfolding_all rfl),
    (c3_parse_size_prefix_match_amended.2.1 (3 / 2) (by norm_num)).1,
    (c3_parse_size_prefix_match_amended.2.1 (3 / 2) (by norm_num)).2⟩

/-- C4, counterexample: a single float token is not returned unchanged:
`parse_size "1.5"` and `parse_length "1.5"` both apply `int()` and return
`1`, not the token's value `1.5`. -/
theorem c4_single_float_counterexample :
    tokenize "1.5" = [Token.float (3 / 2)] ∧
    parse_size "1.5" = Except.ok 1 ∧
    parse_length "1.5" = Except.ok 1 ∧
    ¬(((1 : ℤ) : ℚ) = 3 / 2) := by
  refine ⟨by with_unfolding_all rfl, by with_unfolding_all rfl,
    by with_unfolding_all rfl, by norm_num⟩

/-- C4, amended: for every input that tokenizes to exactly one numeric
token, `parse_size` and `parse_length` return `int()` of that value with
no unit scaling — equal to the token's value exactly when the token is an
integer (so `parse_size "42" = 42`), while a float token such as `"1.5"`
is truncated toward zero. -/
theorem c4_single_numeric_token_amended :
    (∀ (s : String) (n : ℤ), tokenize s = [Token.int n] →
      parse_size s = Except.ok n ∧ parse_length s = Except.ok ((n : ℤ) : ℚ)) ∧
    (∀ (s : String) (q : ℚ), tokenize s = [Token.float q] →
      parse_size s = Except.ok (intTrunc q) ∧
        parse_length s = Except.ok ((intTrunc q : ℤ) : ℚ)) ∧
    parse_size "42" = Except.ok 42 ∧ parse_length "42" = Except.ok 42 := by
  refine ⟨?_, ?_, by with_unfolding_all rfl, by with_unfolding_all rfl⟩
  · intro s n htok
    constructor
    · rw [parse_size_single_num htok rfl, intTrunc_intCast]
    · rw [parse_length_single_num htok rfl, intTrunc_intCast]
  · intro s q htok
    exact ⟨parse_size_single_num htok rfl, parse_length_single_num htok rfl⟩

/-- C4, witness: the single-token rules applied at `"42"` and `"1.5"`. -/
theorem c4_single_numeric_token_amended_witness :
    (parse_size "42" = Except.ok 42 ∧ parse_length "42" = Except.ok (((42 : ℤ) : ℚ))) ∧
    (parse_size "1.5" = Except.ok (intTrunc (3 / 2)) ∧
      parse_length "1.5" = Except.ok ((intTrunc (3 / 2) : ℤ) : ℚ)) :=
  ⟨c4_single_numeric_token_amended.1 "42" 42 rfl,
    c4_single_numeric_token_amended.2.1 "1.5" (3 / 2) (by with_unfolding_all rfl)⟩

/-! ## Claim C5 -/

/-- Spec-side greedy decomposition: walk the units from largest divider to
smallest, emitting the floor of `remaining / divider` for every unit whose
count is non-zero and keeping the remainder. -/
def greedySpec : List TimeUnitInfo → ℚ → List (ℤ × TimeUnitInfo)
  | [], _ => []
  | u :: rest, ns =>
    if 1 ≤ ⌊ns / u.divider⌋ then
      (⌊ns / u.divider⌋, u) :: greedySpec rest (ns - ⌊ns / u.divider⌋ * u.divider)
    else greedySpec rest ns

theorem timespanLoop_cons (u : TimeUnitInfo) (rest : List TimeUnitInfo) (ns : ℚ) :
    timespanLoop (u :: rest) ns =
      if u.divider ≤ ns then
        pluralize (.int (intTrunc (ns / u.divider))) u.singular u.plural ::
          timespanLoop rest (ns - ⌊ns / u.divider⌋ * u.divider)
      else timespanLoop rest ns := rfl

theorem greedySpec_cons (u : TimeUnitInfo) (rest : List TimeUnitInfo) (ns : ℚ) :
    greedySpec (u :: rest) ns =
      if 1 ≤ ⌊ns / u.divider⌋ then
        (⌊ns / u.divider⌋, u) :: greedySpec rest (ns - ⌊ns / u.divider⌋ * u.divider)
      else greedySpec rest ns := rfl

/-- The loop of `format_timespan` computes exactly the greedy floor
decomposition, rendered through `pluralize`. -/
theorem timespanLoop_eq_greedy :
    ∀ (units : List TimeUnitInfo) (ns : ℚ), (∀ u ∈ units, 0 < u.divider) → 0 ≤ ns →
      timespanLoop units ns =
        (greedySpec units ns).map (fun p => pluralize (.int p.1) p.2.singular p.2.plural) := by
  intro units
  induction units with
  | nil => intro ns _ _; rfl
  | cons u rest ih =>
    intro ns hpos hns
    have hdu : 0 < u.divider := hpos u (List.mem_cons_self _ _)
    have hrest : ∀ v ∈ rest, 0 < v.divider := fun v hv => hpos v (List.mem_cons_of_mem _ hv)
    by_cases hc : u.divider ≤ ns
    · have hq0 : 0 ≤ ns / u.divider := div_nonneg hns (le_of_lt hdu)
      have hfl : 1 ≤ ⌊ns / u.divider⌋ := by
        rw [Int.le_floor]
        rw [show ((1 : ℤ) : ℚ) = 1 from rfl, le_div_iff hdu, one_mul]
        exact hc
      have hrem : 0 ≤ ns - ⌊ns / u.divider⌋ * u.divider := by
        have hfle : (⌊ns / u.divider⌋ : ℚ) ≤ ns / u.divider := Int.floor_le _
        have hmul := mul_le_mul_of_nonneg_right hfle (le_of_lt hdu)
        rw [div_mul_cancel₀ _ (ne_of_gt hdu)] at hmul
        linarith
      rw [timespanLoop_cons, if_pos hc, greedySpec_cons, if_pos hfl, List.map_cons,
        intTrunc_of_nonneg hq0, ih _ hrest hrem]
    · have hfl : ¬(1 ≤ ⌊ns / u.divider⌋) := by
        push_neg at hc ⊢
        refine Int.floor_lt.mpr ?_
        rw [show (((1 : ℤ) : ℚ)) = 1 from by norm_num, div_lt_iff hdu, one_mul]
        exact hc
      rw [timespanLoop_cons, if_neg hc, greedySpec_cons, if_neg hfl, ih _ hrest hns]

/-- C5: below 60 seconds `format_timespan` takes the single-unit rounding
fast path; at or above 60 it performs the greedy floor decomposition over
`reversed(time_units)` (each non-zero count rendered via `pluralize`),
keeps at most the 3 largest non-zero units and joins them with
`concatenate` (single item bare — which `concatenate` also returns bare);
`format_timespan 80 = "1 minute and 20 seconds"` and
`format_timespan 0 = "0 seconds"`. -/
theorem c5_format_timespan_structure :
    (∀ ns : ℚ, ns < 60 →
      format_timespan ns = pluralize (.str (round_number ns false)) "second" "") ∧
    (∀ ns : ℚ, 60 ≤ ns →
      timespanLoop time_units.reverse ns =
        (greedySpec time_units.reverse ns).map
          (fun p => pluralize (.int p.1) p.2.singular p.2.plural) ∧
      format_timespan ns = concatenate ((timespanLoop time_units.reverse ns).take 3) ∧
      ((timespanLoop time_units.reverse ns).take 3).length ≤ 3) ∧
    format_timespan 80 = "1 minute and 20 seconds" ∧
    format_timespan 0 = "0 seconds" ∧
    format_timespan (60 * 60 * 24 * 7 * 52 + 2 * (60 * 60 * 24) + 3 * (60 * 60)) =
      "1 year, 2 days and 3 hours" := by
  refine ⟨?_, ?_, by with_unfolding_all rfl, by with_unfolding_all rfl,
    by with_unfolding_all rfl⟩
  · intro ns h
    unfold format_timespan
    rw [if_pos h]
  · intro ns h
    refine ⟨?_, ?_, List.length_take_le 3 _⟩
    · refine timespanLoop_eq_greedy _ ns ?_ (by linarith)
      intro u hu
      fin_cases hu <;> norm_num
    · unfold format_timespan
      rw [if_neg (not_lt.mpr h)]
      by_cases hone : (timespanLoop time_units.reverse ns).length = 1
      · rw [if_pos hone]
        obtain ⟨a, ha⟩ := List.length_eq_one.mp hone
        rw [ha]
        rfl
      · rw [if_neg hone]

/-- C5, witness: the fast path at `ns = 10` and the slow-path join shape
at `ns = 80`. -/
theorem c5_format_timespan_structure_witness :
    format_timespan 10 = pluralize (.str (round_number 10 false)) "second" "" ∧
    format_timespan 80 = concatenate ((timespanLoop time_units.reverse 80).take 3) :=
  ⟨c5_format_timespan_structure.1 10 (by norm_num),
    (c5_format_timespan_structure.2.1 80 (by norm_num)).2.1⟩

/-! ## Claim C6 -/

theorem lcStartsWith_nil_pat (l : List Char) : lcStartsWith l [] = true := by
  cases l <;> rfl

theorem lcStartsWith_cons_pat (c : Char) (cs : List Char) (p : Char) (ps : List Char) :
    lcStartsWith (c :: cs) (p :: ps) = ((c == p) && lcStartsWith cs ps) := rfl

theorem lcStartsWith_single_mismatch {l : List Char} {p p' : Char}
    (h : lcStartsWith l [p] = true) (hne : (p == p') = false) :
    lcStartsWith l [p'] = false := by
  cases l with
  | nil => exact nomatch h
  | cons c cs =>
    rw [lcStartsWith_cons_pat, lcStartsWith_nil_pat, Bool.and_true] at h ⊢
    rw [beq_iff_eq] at h
    subst h
    exact hne

/-- C6: `parse_timespan` matches the unit token against the first letter
of each singular unit name, in the table's ascending order (`s`, `m`,
`h`, `d`, `w`, `y`), returning the numeric token times the matched
divider; `parse_timespan "1m" = 60`, `parse_timespan "1h" = 3600`, and
any unit token whose lower-casing begins with `m` is treated as
minutes. -/
theorem c6_parse_timespan_first_letter :
    time_units.map (fun e => e.singular.toList.take 1) =
      [['s'], ['m'], ['h'], ['d'], ['w'], ['y']] ∧
    (∀ (s : String) (t : Token) (q : ℚ) (u : String) (e : TimeUnitInfo),
      tokenize s = [t, Token.str u] → tokenNum t = some q → timespanMatch u = some e →
      parse_timespan s = Except.ok (q * e.divider)) ∧
    parse_timespan "1m" = Except.ok 60 ∧
    parse_timespan "1h" = Except.ok 3600 ∧
    (∀ (s : String) (t : Token) (q : ℚ) (u : String),
      tokenize s = [t, Token.str u] → tokenNum t = some q →
      lcStartsWith (lowerList u.toList) ['m'] = true →
      parse_timespan s = Except.ok (q * 60)) := by
  refine ⟨rfl,
    fun s t q u e htok hnum hmatch => parse_timespan_two_tokens htok hnum hmatch,
    by with_unfolding_all rfl, by with_unfolding_all rfl, ?_⟩
  intro s t q u htok hnum hm
  have hs : lcStartsWith (lowerList u.toList) ['s'] = false :=
    lcStartsWith_single_mismatch hm rfl
  have hmatch : timespanMatch u = some ⟨60, "minute", "minutes"⟩ := by
    unfold timespanMatch time_units
    rw [List.find?_cons_of_neg _ (by
        show ¬(lcStartsWith (lowerList u.toList) ("second".toList.take 1) = true)
        rw [show ("second".toList.take 1 : List Char) = ['s'] from rfl, hs]
        simp),
      List.find?_cons_of_pos _ (by
        show lcStartsWith (lowerList u.toList) ("minute".toList.take 1) = true
        rw [show ("minute".toList.take 1 : List Char) = ['m'] from rfl]
        exact hm)]
  exact parse_timespan_two_tokens htok hnum hmatch

/-- C6, witness: the two-token rule and first-letter matching at
`"1m"`. -/
theorem c6_parse_timespan_first_letter_witness :
    parse_timespan "1m" = Except.ok ((1 : ℚ) * 60) :=
  c6_parse_timespan_first_letter.2.2.2.2 "1m" (Token.int 1) 1 "m"
    (by with_unfolding_all rfl) rfl (by with_unfolding_all rfl)

/-! ## Claim C7 -/

/-- The token shapes `parse_size` accepts: a single number, or a number
followed by a string matching some entry of `disk_size_units`. -/
def sizeShapeOk (tokens : List Token) : Bool :=
  match tokens with
  | [t] => (tokenNum t).isSome
  | [t, Token.str u] => (tokenNum t).isSome && (sizeUnitMatch u).isSome
  | _ => false

/-- C7: `parse_size` fails exactly when the token list is neither a single
number nor a number followed by a unit-matching string, and on failure the
`InvalidSize` payload is the original input together with its token list
(no value is returned); in particular `parse_size "5 Z"` fails carrying
`("5 Z", [5, "Z"])`. -/
theorem c7_parse_size_error_conditions :
    (∀ s : String,
      parse_size s = Except.error (s, tokenize s) ↔ sizeShapeOk (tokenize s) = false) ∧
    (∀ s : String, sizeShapeOk (tokenize s) = true → ∃ n : ℤ, parse_size s = Except.ok n) ∧
    parse_size "5 Z" = Except.error ("5 Z", [Token.int 5, Token.str "Z"]) := by
  have key : ∀ s : String,
      (sizeShapeOk (tokenize s) = false ∧ parse_size s = Except.error (s, tokenize s)) ∨
      (sizeShapeOk (tokenize s) = true ∧ ∃ n, parse_size s = Except.ok n) := by
    intro s
    unfold parse_size sizeShapeOk
    rcases htok : tokenize s with _ | ⟨t, _ | ⟨t2, _ | ⟨t3, rest⟩⟩⟩
    · exact Or.inl ⟨rfl, rfl⟩
    · rcases hnum : tokenNum t with _ | q
      · exact Or.inl ⟨by simp [hnum], by simp [hnum]⟩
      · exact Or.inr ⟨by simp [hnum], intTrunc q, by simp [hnum]⟩
    · cases t2 with
      | str u =>
        rcases hnum : tokenNum t with _ | q
        · exact Or.inl ⟨by simp [hnum], by simp [hnum]⟩
        · rcases hmu : sizeUnitMatch u with _ | e
          · exact Or.inl ⟨by simp [hnum, hmu], by simp [hnum, hmu]⟩
          · exact Or.inr ⟨by simp [hnum, hmu], intTrunc (q * e.divider), by simp [hnum, hmu]⟩
      | int n => exact Or.inl ⟨rfl, rfl⟩
      | float q => exact Or.inl ⟨rfl, rfl⟩
    · cases t2 <;> exact Or.inl ⟨rfl, rfl⟩
  refine ⟨?_, ?_, by with_unfolding_all rfl⟩
  · intro s
    rcases key s with ⟨h1, h2⟩ | ⟨h1, n, h2⟩
    · exact ⟨fun _ => h1, fun _ => h2⟩
    · constructor
      · intro he
        rw [h2] at he
        exact absurd he (by simp)
      · intro hf
        rw [h1] at hf
        exact absurd hf (by simp)
  · intro s hok
    rcases key s with ⟨h1, _⟩ | ⟨_, h2⟩
    · rw [h1] at hok
      exact absurd hok (by simp)
    · exact h2

/-- C7, witness: the success direction at `"42"`. -/
theorem c7_parse_size_error_conditions_witness :
    ∃ n : ℤ, parse_size "42" = Except.ok n :=
  c7_parse_size_error_conditions.2.1 "42" rfl

/-! ## Claim C8 -/

theorem getLast?_dropWhile_ne_nil {p : Char → Bool} :
    ∀ {m : List Char}, m.dropWhile p ≠ [] → (m.dropWhile p).getLast? = m.getLast? := by
  intro m
  induction m with
  | nil => intro h; exact absurd rfl h
  | cons a as ih =>
    intro h
    by_cases hp : p a
    · rw [List.dropWhile_cons_of_pos hp] at h ⊢
      have has : as ≠ [] := by
        intro hnil
        rw [hnil] at h
        exact h rfl
      cases as with
      | nil => exact absurd rfl has
      | cons b bs => rw [ih h, List.getLast?_cons_cons]
    · rw [List.dropWhile_cons_of_neg hp]

theorem pyStrip_idem (l : List Char) : pyStrip (pyStrip l) = pyStrip l := by
  rcases hB : ((l.dropWhile isWs).reverse).dropWhile isWs with _ | ⟨b, bs⟩
  · have h0 : pyStrip l = [] := by
      unfold pyStrip
      rw [hB]
      rfl
    rw [h0]
    rfl
  · have hps : pyStrip l = (b :: bs).reverse := by
      unfold pyStrip
      rw [hB]
    have hb : isWs b = false := dropWhile_head_false hB
    have hBne : ((l.dropWhile isWs).reverse).dropWhile isWs ≠ [] := by
      rw [hB]
      simp
    have hlast : (b :: bs).getLast? = (l.dropWhile isWs).head? := by
      rw [← hB, getLast?_dropWhile_ne_nil hBne, List.getLast?_reverse]
    have hstep1 : ((b :: bs).reverse).dropWhile isWs = (b :: bs).reverse := by
      apply dropWhile_eq_self_of_head
      intro c hc
      rw [List.head?_reverse, hlast] at hc
      cases hA : l.dropWhile isWs with
      | nil =>
        rw [hA] at hc
        cases hc
      | cons a as =>
        rw [hA] at hc
        simp at hc
        subst hc
        exact dropWhile_head_false hA
    have hstep2 : (b :: bs).dropWhile isWs = b :: bs :=
      dropWhile_eq_self_of_head (by
        intro c hc
        simp at hc
        subst hc
        exact hb)
    rw [hps]
    unfold pyStrip
    rw [hstep1, List.reverse_reverse, hstep2]

theorem string_asString_ne_empty {tok : List Char} (h : tok ≠ []) : tok.asString ≠ "" := by
  intro hemp
  apply h
  have : (tok.asString).data = ("" : String).data := by rw [hemp]
  exact this

theorem classify_str_inv {f : Frag} {u : String} (h : classify f = some (Token.str u)) :
    u ≠ "" ∧ pyStrip u.toList = u.toList := by
  unfold classify at h
  dsimp only at h
  split at h
  · exact absurd h (by simp)
  · split at h
    · exact absurd h (by simp)
    · split at h
      · rename_i hne
        simp only [Option.some.injEq, Token.str.injEq] at h
        subst h
        refine ⟨string_asString_ne_empty ?_, ?_⟩
        · intro hnil
          rw [hnil] at hne
          simp at hne
        · rw [asString_toList]
          exact pyStrip_idem _
      · exact absurd h (by simp)

/-- C8: every token `tokenize` produces is an int, a float or a non-empty
string that is its own `strip` (empty and whitespace-only fragments are
discarded); number/unit pairs tokenize identically with or without a
separating space, `tokenize "42.5MB" = [42.5, "MB"]`, and
`tokenize "" = []`.  The function is a pure Lean function, so it is
deterministic by construction. -/
theorem c8_tokenize_tokens :
    (∀ (s : String) (t : Token), t ∈ tokenize s →
      ∀ u : String, t = Token.str u → u ≠ "" ∧ pyStrip u.toList = u.toList) ∧
    tokenize "42MB" = tokenize "42 MB" ∧
    tokenize "42MB" = [Token.int 42, Token.str "MB"] ∧
    tokenize "42.5MB" = [Token.float (85 / 2), Token.str "MB"] ∧
    tokenize "" = [] := by
  refine ⟨?_, by with_unfolding_all rfl, rfl, by with_unfolding_all rfl, rfl⟩
  intro s t ht u htu
  subst htu
  obtain ⟨f, _, hcf⟩ := List.mem_filterMap.mp ht
  exact classify_str_inv hcf

/-- C8, witness: the string-token invariant applied to the token `"MB"`
of `tokenize "42MB"`. -/
theorem c8_tokenize_tokens_witness :
    ("MB" : String) ≠ "" ∧ pyStrip ("MB" : String).toList = ("MB" : String).toList :=
  c8_tokenize_tokens.1 "42MB" (Token.str "MB")
    (by rw [show tokenize "42MB" = [Token.int 42, Token.str "MB"] from rfl]; simp) "MB" rfl

/-! ## Claim C9 -/

/-- C9: `pluralize` derives the plural as `singular ++ "s"` when no
explicit plural is given (the falsy default), renders
`"<count> <word>"`, and chooses the singular exactly when the floor of
the count's numeric value equals 1; `pluralize 1 "word" = "1 word"`,
`pluralize 2 "word" = "2 words"`, `pluralize 1 "box" "boxes" = "1 box"`. -/
theorem c9_pluralize :
    (∀ (n : ℤ) (sg : String),
      pluralize (.int n) sg "" = intRender n ++ " " ++ (if n = 1 then sg else sg ++ "s")) ∧
    (∀ (n : ℤ) (sg pl : String), pl ≠ "" →
      pluralize (.int n) sg pl = intRender n ++ " " ++ (if n = 1 then sg else pl)) ∧
    (∀ (c : Count) (sg pl : String), pl ≠ "" →
      pluralize c sg pl = c.render ++ " " ++ (if ⌊c.value⌋ = 1 then sg else pl)) ∧
    pluralize (.int 1) "word" "" = "1 word" ∧
    pluralize (.int 2) "word" "" = "2 words" ∧
    pluralize (.int 1) "box" "boxes" = "1 box" := by
  refine ⟨?_, ?_, fun c sg pl hpl => pluralize_cases c sg pl hpl,
    by with_unfolding_all rfl, by with_unfolding_all rfl, by with_unfolding_all rfl⟩
  · intro n sg
    simp only [pluralize, Count.render, Count.value, Int.floor_intCast]
    simp
  · intro n sg pl hpl
    rw [pluralize_cases _ _ _ hpl]
    simp only [Count.render, Count.value, Int.floor_intCast]

/-- C9, witness: the derivation rules applied at counts 5 and 1. -/
theorem c9_pluralize_witness :
    pluralize (.int 5) "word" "" =
      intRender 5 ++ " " ++ (if (5 : ℤ) = 1 then "word" else "word" ++ "s") ∧
    pluralize (.int 1) "box" "boxes" =
      intRender 1 ++ " " ++ (if (1 : ℤ) = 1 then "box" else "boxes") :=
  ⟨c9_pluralize.1 5 "word", c9_pluralize.2.1 1 "box" "boxes" (by decide)⟩

/-! ## Claim C10 -/

theorem decToRat_nonneg (l : List Char) : 0 ≤ decToRat l := by
  unfold decToRat
  split <;> positivity

theorem classify_int_nonneg {f : Frag} {n : ℤ} (h : classify f = some (Token.int n)) :
    0 ≤ n := by
  unfold classify at h
  dsimp only at h
  split at h
  · exact absurd h (by simp)
  · split at h
    · simp only [Option.some.injEq, Token.int.injEq] at h
      subst h
      exact Int.ofNat_nonneg _
    · split at h
      · exact absurd h (by simp)
      · exact absurd h (by simp)

theorem classify_float_nonneg {f : Frag} {q : ℚ} (h : classify f = some (Token.float q)) :
    0 ≤ q := by
  unfold classify at h
  dsimp only at h
  split at h
  · simp only [Option.some.injEq, Token.float.injEq] at h
    subst h
    exact decToRat_nonneg _
  · split at h
    · exact absurd h (by simp)
    · split at h
      · exact absurd h (by simp)
      · exact absurd h (by simp)

theorem splitGo_txt_first_text :
    ∀ (l acc : List Char), ∃ pre tail,
      splitGo l (.txt acc) = .text (acc.reverse ++ pre) :: tail ∧
        ∀ c ∈ pre, isDig c = false := by
  intro l
  induction l with
  | nil =>
    intro acc
    exact ⟨[], [], by simp [splitGo_nil, flushMode], by simp⟩
  | cons c rest ih =>
    intro acc
    by_cases hc : isDig c
    · exact ⟨[], splitGo rest (.intp [c]),
        by rw [splitGo_cons_txt, if_pos hc]; simp, by simp⟩
    · obtain ⟨pre, tail, hs, hp⟩ := ih (c :: acc)
      refine ⟨c :: pre, tail, ?_, ?_⟩
      · rw [splitGo_cons_txt, if_neg hc, hs]
        simp
      · intro a ha
        rcases List.mem_cons.mp ha with ha | ha
        · subst ha
          simpa using hc
        · exact hp a ha

theorem dropWhile_append_singleton {p : Char → Bool} {c : Char} (hc : p c = false) :
    ∀ m : List Char, (m ++ [c]).dropWhile p = m.dropWhile p ++ [c] := by
  intro m
  induction m with
  | nil => simp [List.dropWhile, hc]
  | cons a as ih =>
    by_cases hp : p a
    · rw [List.cons_append, List.dropWhile_cons_of_pos hp, List.dropWhile_cons_of_pos hp, ih]
    · rw [List.cons_append, List.dropWhile_cons_of_neg hp, List.dropWhile_cons_of_neg hp,
        List.cons_append]

theorem pyStrip_head_nonws {c : Char} (rest : List Char) (hcw : isWs c = false) :
    ∃ S : List Char, pyStrip (c :: rest) = c :: S := by
  have h1 : (c :: rest).dropWhile isWs = c :: rest :=
    dropWhile_eq_self_of_head (by
      intro d hd
      simp at hd
      subst hd
      exact hcw)
  unfold pyStrip
  rw [h1, show ((c :: rest).reverse) = rest.reverse ++ [c] from by simp,
    dropWhile_append_singleton hcw]
  exact ⟨(rest.reverse.dropWhile isWs).reverse, by simp⟩

theorem classify_text_first {c : Char} (rest : List Char)
    (hcd : isDig c = false) (hcw : isWs c = false) :
    ∃ u : String, classify (.text (c :: rest)) = some (Token.str u) := by
  obtain ⟨S, hS⟩ := pyStrip_head_nonws rest hcw
  refine ⟨(c :: S).asString, ?_⟩
  have hmf : matchFloat (c :: S) = false := by
    unfold matchFloat
    rw [List.takeWhile_cons_of_neg (by simp [hcd])]
    simp
  have hall : (c :: S).all isDig = false := by
    simp only [List.all_eq_false]
    exact ⟨c, List.mem_cons_self _ _, by simp [hcd]⟩
  unfold classify
  simp [hS, hmf, hall]

theorem tokenize_head_dash (s : String) (h : s.toList.head? = some '-') :
    ∃ u rest, tokenize s = Token.str u :: rest := by
  cases hl : s.toList with
  | nil =>
    rw [hl] at h
    cases h
  | cons c cs =>
    rw [hl] at h
    simp at h
    subst h
    unfold tokenize
    rw [hl, splitGo_cons_txt, if_neg (by decide)]
    obtain ⟨pre, tail, hsplit, hpre⟩ := splitGo_txt_first_text cs ['-']
    rw [hsplit]
    obtain ⟨u, hu⟩ := classify_text_first pre (c := '-') rfl rfl
    rw [show (['-'] : List Char).reverse ++ pre = '-' :: pre from by simp] at *
    rw [List.filterMap_cons, hu]
    exact ⟨u, tail.filterMap classify, rfl⟩

theorem parse_size_head_str {s : String} {u : String} {rest : List Token}
    (htok : tokenize s = Token.str u :: rest) :
    parse_size s = .error (s, tokenize s) := by
  unfold parse_size
  rw [htok]
  rcases rest with _ | ⟨r2, _ | ⟨r3, rs⟩⟩
  · rfl
  · cases r2 <;> rfl
  · cases r2 <;> rfl

theorem parse_length_head_str {s : String} {u : String} {rest : List Token}
    (htok : tokenize s = Token.str u :: rest) :
    parse_length s = .error (s, tokenize s) := by
  unfold parse_length
  rw [htok]
  rcases rest with _ | ⟨r2, _ | ⟨r3, rs⟩⟩
  · rfl
  · cases r2 <;> rfl
  · cases r2 <;> rfl

theorem parse_timespan_head_str {s : String} {u : String} {rest : List Token}
    (htok : tokenize s = Token.str u :: rest) :
    parse_timespan s = .error (s, tokenize s) := by
  unfold parse_timespan
  rw [htok]
  rcases rest with _ | ⟨r2, _ | ⟨r3, rs⟩⟩
  · rfl
  · cases r2 <;> rfl
  · cases r2 <;> rfl

/-- C10: numeric tokens are never negative — a minus sign is emitted as a
separate string token — so on inputs with a leading sign, such as `"-5"`
or `"-5 KB"`, `parse_size`, `parse_length` and `parse_timespan` all raise
their invalid-input error instead of returning a negative value. -/
theorem c10_no_negative_tokens :
    (∀ (s : String) (t : Token), t ∈ tokenize s →
      (∀ n : ℤ, t = Token.int n → 0 ≤ n) ∧ (∀ q : ℚ, t = Token.float q → 0 ≤ q)) ∧
    (∀ s : String, s.toList.head? = some '-' →
      parse_size s = Except.error (s, tokenize s) ∧
      parse_length s = Except.error (s, tokenize s) ∧
      parse_timespan s = Except.error (s, tokenize s)) ∧
    parse_size "-5" = Except.error ("-5", [Token.str "-", Token.int 5]) ∧
    parse_size "-5 KB" =
      Except.error ("-5 KB", [Token.str "-", Token.int 5, Token.str "KB"]) := by
  refine ⟨?_, ?_, by with_unfolding_all rfl, by with_unfolding_all rfl⟩
  · intro s t ht
    obtain ⟨f, _, hcf⟩ := List.mem_filterMap.mp ht
    constructor
    · intro n htn
      subst htn
      exact classify_int_nonneg hcf
    · intro q htq
      subst htq
      exact classify_float_nonneg hcf
  · intro s h
    obtain ⟨u, rest, htok⟩ := tokenize_head_dash s h
    exact ⟨parse_size_head_str htok, parse_length_head_str htok, parse_timespan_head_str htok⟩

/-- C10, witness: the nonnegativity invariant on the numeric token of
`tokenize "-5"` and the error behaviour at `"-5"`. -/
theorem c10_no_negative_tokens_witness :
    ((∀ n : ℤ, Token.int 5 = Token.int n → 0 ≤ n) ∧
      (∀ q : ℚ, Token.int 5 = Token.float q → 0 ≤ q)) ∧
    (parse_size "-5" = Except.error ("-5", tokenize "-5") ∧
      parse_length "-5" = Except.error ("-5", tokenize "-5") ∧
      parse_timespan "-5" = Except.error ("-5", tokenize "-5")) :=
  ⟨c10_no_negative_tokens.1 "-5" (Token.int 5)
      (by rw [show tokenize "-5" = [Token.str "-", Token.int 5] from rfl]; simp),
    c10_no_negative_tokens.2.1 "-5" rfl⟩
